import Mathlib

/-!
Verification development for git-subtrac (apenwarr/git-subtrac).

This file gives a shallow embedding of the core of `subtrac.go` and of the
CLI dispatch in the main file, and proves properties of the synthetic
tracking-commit construction.

Modelling conventions:
* Object hashes (`plumbing.Hash`) are modelled as `Nat`.  Content
  addressing of synthetic commits (`Storer.SetEncodedObject` returning the
  digest of the encoded bytes) is modelled by an injective encoding of the
  commit fields into `Nat` (`synthHashOf`).  The commit message is omitted
  from the encoding because it is itself a function of the cited source
  hash, which is encoded directly.
* The git object stores are association lists: `Repo.commits` are the
  commits of the host repository, `Repo.trees` the tree objects (trees are
  content-addressed and identical across repositories, so one global tree
  store is used), and `Repo.subCommits` the commits available in
  initialized sub-repositories.  `tryFetchFromSubmodules` is modelled by
  moving the found commit together with its ancestry (`fetchClosure`) into
  the mutable `Cache.fetched` store, after which `CommitObject` succeeds.
* The recursion of `tracCommit`/`tracTree` over the (acyclic) object graph
  is modelled with explicit fuel; running out of fuel is an error, and all
  theorems are about runs that return `.ok`.
* Failures (`error` returns in Go) are `Except String`.  The two places
  where the Go code dereferences a possibly-nil pointer before use
  (`pc.Hash` in the parent loop of `tracCommit` after a failed
  `CommitObject`, and `trac.Hash` in the `cid` command) are modelled as an
  error, respectively as a distinguished panic outcome of the CLI model.
-/

set_option maxHeartbeats 1000000

namespace Subtrac

/-- Object hashes (`plumbing.Hash`): opaque content identifiers. -/
abbrev Hash := Nat

/-- The file mode of a tree entry, restricted to the three kinds the
traversal distinguishes (`filemode.Submodule`, `filemode.Dir`, other). -/
inductive EntryMode where
  | file
  | dir
  | submodule
deriving DecidableEq, Repr

/-- One entry of a git tree object, in stored order. -/
structure TreeEntry where
  name : String
  mode : EntryMode
  hash : Hash
deriving DecidableEq, Repr

/-- The fields of a source commit object that the algorithm reads:
its root tree, its parent hashes in order, and its committer timestamp
(`commit.Committer.When`). -/
structure CommitData where
  tree : Hash
  parents : List Hash
  committerWhen : Nat
deriving DecidableEq, Repr

/-- A synthetic tracking commit (`object.Commit` as constructed by
`newTracCommit`): fixed identity fields, an empty tree, the parent list,
the message, and the content hash assigned on store. -/
structure SynthCommit where
  authorName : String
  authorEmail : String
  when : Nat
  treeHash : Hash
  parentHashes : List Hash
  message : String
  hash : Hash
deriving DecidableEq, Repr

/-- The cache record for one visited object (`Trac` in subtrac.go):
a diagnostic name, the source hash, the parent commit Tracs (empty for
trees), the submodule heads reachable through this object's tree, and the
optional synthetic tracking commit. -/
inductive Trac where
  | mk (name : String) (hash : Hash) (parents : List Trac)
       (subHeads : List Trac) (tracCommit : Option SynthCommit)

def Trac.name : Trac → String
  | .mk n _ _ _ _ => n

def Trac.hash : Trac → Hash
  | .mk _ h _ _ _ => h

def Trac.parents : Trac → List Trac
  | .mk _ _ p _ _ => p

def Trac.subHeads : Trac → List Trac
  | .mk _ _ _ s _ => s

def Trac.tracCommit : Trac → Option SynthCommit
  | .mk _ _ _ _ t => t

@[simp] theorem Trac.name_mk (n h p s t) : (Trac.mk n h p s t).name = n := rfl
@[simp] theorem Trac.hash_mk (n h p s t) : (Trac.mk n h p s t).hash = h := rfl
@[simp] theorem Trac.parents_mk (n h p s t) : (Trac.mk n h p s t).parents = p := rfl
@[simp] theorem Trac.subHeads_mk (n h p s t) : (Trac.mk n h p s t).subHeads = s := rfl
@[simp] theorem Trac.tracCommit_mk (n h p s t) : (Trac.mk n h p s t).tracCommit = t := rfl

/-- The object stores the traversal reads: the host repository's commits,
the (shared) tree objects, and the commits present in initialized
sub-repositories (what `tryFetchFromSubmodules` can find). -/
structure Repo where
  commits : List (Hash × CommitData)
  trees : List (Hash × List TreeEntry)
  subCommits : List (Hash × CommitData)
deriving Repr

/-- Association-list lookup keyed by hash (git maps/object stores). -/
def lookupA {α : Type} (l : List (Hash × α)) (h : Hash) : Option α :=
  (l.find? (fun p => p.1 == h)).map (fun p => p.2)

/-- The mutable state of a `Cache` (subtrac.go): the auto-exclude flag,
the exclusion set, the Trac lookup cache, the objects pulled in from
sub-repositories by fetches, and the synthetic objects written to the
host store. -/
structure Cache where
  autoexclude : Bool
  excludes : List Hash
  tracs : List (Hash × Trac)
  fetched : List (Hash × CommitData)
  written : List SynthCommit

/-- `Cache.exclude`: add one hash to the exclusion set (idempotent). -/
def Cache.exclude (st : Cache) (h : Hash) : Cache :=
  if h ∈ st.excludes then st else { st with excludes := st.excludes ++ [h] }

/-- `Cache.add`: record a Trac in the lookup cache under its hash. -/
def cacheAdd (st : Cache) (t : Trac) : Cache :=
  { st with tracs := st.tracs ++ [(t.hash, t)] }

/-- `repo.CommitObject`: a commit is visible if it is in the host store or
has been fetched from a sub-repository during this invocation. -/
def commitObject (repo : Repo) (st : Cache) (h : Hash) : Option CommitData :=
  lookupA (repo.commits ++ st.fetched) h

/-- `repo.TreeObject` / `commit.Tree`. -/
def treeObject (repo : Repo) (h : Hash) : Option (List TreeEntry) :=
  lookupA repo.trees h

/-- The ancestry of a hash inside the sub-repository stores: what a
`git fetch` of that hash transfers into the host repository.  Fueled
breadth-first walk over parent edges. -/
def fetchClosure (repo : Repo) : Nat → List Hash → List (Hash × CommitData)
  | 0, _ => []
  | _ + 1, [] => []
  | fuel + 1, h :: rest =>
    match lookupA repo.subCommits h with
    | some cd => (h, cd) :: fetchClosure repo fuel (rest ++ cd.parents)
    | none => fetchClosure repo fuel rest

/-- Injective encoding of a list of naturals (used for content hashing). -/
def encodeList (l : List Hash) : Nat :=
  l.foldr (fun a b => Nat.pair a b + 1) 0

/-- The hash of the canonical empty tree object (a fixed constant in any
given hash scheme). -/
def emptyTreeHash : Hash := 0

/-- The message of a synthetic commit: the fixed template citing the
source commit's hash. -/
def tracMessage (h : Hash) : String :=
  "[git-subtrac for " ++ toString h ++ "]"

/-- The content hash assigned by the object store to an encoded synthetic
commit: a function of its fields.  The message is represented by the cited
source hash, which determines it. -/
def synthHashOf (srcHash treeHash when : Nat) (parents : List Hash) : Hash :=
  Nat.pair srcHash (Nat.pair treeHash (Nat.pair when (encodeList parents))) + 1

/-- `Cache.newTracCommit`: build and store the synthetic commit whose
parents are the inherited trac commits followed by the new submodule
heads, with an empty tree, the fixed identity, the source commit's
committer timestamp, and the fixed message template. -/
def newTracCommit (st : Cache) (srcHash : Hash) (when : Nat)
    (tracs : List SynthCommit) (heads : List Trac) : Cache × SynthCommit :=
  let parents := tracs.map (fun c => c.hash) ++ heads.map Trac.hash
  let msg := tracMessage srcHash
  let tc : SynthCommit :=
    { authorName := "git-subtrac"
      authorEmail := "git-subtrac@"
      when := when
      treeHash := emptyTreeHash
      parentHashes := parents
      message := msg
      hash := synthHashOf srcHash emptyTreeHash when parents }
  ({ st with written := st.written ++ [tc] }, tc)

/-- `strconv.Atoi` on the suffix after `~`: optional sign, digits. -/
def digitsVal : List Char → Option Nat
  | [] => none
  | l => l.foldl (fun acc c =>
      match acc with
      | none => none
      | some n => if c.isDigit then some (n * 10 + (c.toNat - '0'.toNat)) else none)
      (some 0)

def atoi (s : String) : Option Int :=
  match s.toList with
  | [] => none
  | '+' :: rest => (digitsVal rest).map Int.ofNat
  | '-' :: rest => (digitsVal rest).map (fun n => -(n : Int))
  | l => (digitsVal l).map Int.ofNat

/-- Split a character list around its last `~`, if any: returns the part
before and the part after. -/
def splitLastTilde : List Char → Option (List Char × List Char)
  | [] => none
  | c :: rest =>
    match splitLastTilde rest with
    | some (b, a) => some (c :: b, a)
    | none => if c = '~' then some ([], rest) else none

/-- `commitPath`: derive the diagnostic revision path of the `sub`-th
parent (1-based) from the current path, extending a trailing `~K` for the
first parent and appending `^sub` otherwise. -/
def commitPath (path : String) (sub : Nat) : String :=
  if sub ≠ 1 then path ++ "^" ++ toString sub
  else
    match splitLastTilde path.toList with
    | none => path ++ "~1"
    | some (b, a) =>
      match atoi (String.mk a) with
      | none => path ++ "~1"
      | some v => String.mk b ++ "~" ++ toString (v + 1)

/-- The abbreviated hash used in diagnostic submodule paths (`%.10v`). -/
def shortHash (h : Hash) : String := (toString h).take 10

/-- First loop of the synthesis work-list construction in `tracCommit`:
walk the parent Tracs, collecting each parent's `tracCommit` deduplicated
by hash into `tracs`, and marking every parent's subHeads hash as seen. -/
def parentsPass : List Trac → List Hash → List Hash → List SynthCommit →
    List Hash × List Hash × List SynthCommit
  | [], seenHeads, seenTracs, tracs => (seenHeads, seenTracs, tracs)
  | p :: rest, seenHeads, seenTracs, tracs =>
    match p.tracCommit with
    | some tc =>
      if tc.hash ∈ seenTracs then
        parentsPass rest (seenHeads ++ p.subHeads.map Trac.hash) seenTracs tracs
      else
        parentsPass rest (seenHeads ++ p.subHeads.map Trac.hash)
          (seenTracs ++ [tc.hash]) (tracs ++ [tc])
    | none => parentsPass rest (seenHeads ++ p.subHeads.map Trac.hash) seenTracs tracs

/-- Second loop of the synthesis work-list construction in `tracCommit`:
walk this commit's subHeads; heads not covered by any parent become
`newHeads`, and their trac commits are appended to `tracs` (deduplicated
by hash). -/
def headsPass : List Trac → List Hash → List Hash → List Trac → List SynthCommit →
    List Hash × List Hash × List Trac × List SynthCommit
  | [], seenHeads, seenTracs, newHeads, tracs => (seenHeads, seenTracs, newHeads, tracs)
  | h :: rest, seenHeads, seenTracs, newHeads, tracs =>
    if h.hash ∈ seenHeads then
      headsPass rest seenHeads seenTracs newHeads tracs
    else
      match h.tracCommit with
      | some tc =>
        if tc.hash ∈ seenTracs then
          headsPass rest (seenHeads ++ [h.hash]) seenTracs (newHeads ++ [h]) tracs
        else
          headsPass rest (seenHeads ++ [h.hash]) (seenTracs ++ [tc.hash])
            (newHeads ++ [h]) (tracs ++ [tc])
      | none => headsPass rest (seenHeads ++ [h.hash]) seenTracs (newHeads ++ [h]) tracs

mutual

/-- `Cache.tracCommit`: compute (memoized) the Trac of a commit: its
subHeads are its root tree's subHeads; its parents are traversed
recursively; and the synthesis decision either inherits a single parent
trac commit or creates a new synthetic commit. -/
def tracCommit (repo : Repo) : Nat → Cache → String → Hash → CommitData →
    Except String (Cache × Trac)
  | 0, _, _, _, _ => .error "out of fuel"
  | fuel + 1, st, path, chash, cd =>
    match lookupA st.tracs chash with
    | some t => .ok (st, t)
    | none =>
      match treeObject repo cd.tree with
      | none => .error (path ++ ": missing tree")
      | some entries =>
        match tracTree repo fuel st (path ++ "/") cd.tree entries with
        | .error e => .error e
        | .ok (st1, ttrac) =>
          match tracParents repo fuel st1 path 1 cd.parents with
          | .error e => .error e
          | .ok (st2, ptracs) =>
            let pp := parentsPass ptracs [] [] []
            let hp := headsPass ttrac.subHeads pp.1 pp.2.1 [] pp.2.2
            let newHeads := hp.2.2.1
            let tracs := hp.2.2.2
            if newHeads.length = 0 ∧ tracs.length ≤ 1 then
              let trac := Trac.mk path chash ptracs ttrac.subHeads tracs.head?
              .ok (cacheAdd st2 trac, trac)
            else
              let r := newTracCommit st2 chash cd.committerWhen tracs newHeads
              let trac := Trac.mk path chash ptracs ttrac.subHeads (some r.2)
              .ok (cacheAdd r.1 trac, trac)

/-- The parent loop of `tracCommit`: resolve each parent hash and compute
its Trac with the derived diagnostic path.  A missing parent aborts (the
Go code dereferences the nil commit while formatting this error). -/
def tracParents (repo : Repo) : Nat → Cache → String → Nat → List Hash →
    Except String (Cache × List Trac)
  | 0, _, _, _, _ => .error "out of fuel"
  | _ + 1, st, _, _, [] => .ok (st, [])
  | fuel + 1, st, path, i, p :: rest =>
    match commitObject repo st p with
    | none => .error (path ++ ": missing parent commit (nil dereference)")
    | some pcd =>
      match tracCommit repo fuel st (commitPath path i) p pcd with
      | .error e => .error e
      | .ok (st1, ptrac) =>
        match tracParents repo fuel st1 path (i + 1) rest with
        | .error e => .error e
        | .ok (st2, ptracs) => .ok (st2, ptrac :: ptracs)

/-- `Cache.tracTree`: compute (memoized) the Trac of a tree: the
concatenation over its entries of one Trac per (non-excluded) submodule
entry and the recursive subHeads of each directory entry. -/
def tracTree (repo : Repo) : Nat → Cache → String → Hash → List TreeEntry →
    Except String (Cache × Trac)
  | 0, _, _, _, _ => .error "out of fuel"
  | fuel + 1, st, path, thash, entries =>
    match lookupA st.tracs thash with
    | some t => .ok (st, t)
    | none =>
      match tracEntries repo fuel st path entries with
      | .error e => .error e
      | .ok (st1, heads) =>
        let trac := Trac.mk path thash [] heads none
        .ok (cacheAdd st1 trac, trac)

/-- The entry loop of `tracTree`.  Files are ignored; submodule entries
contribute exactly one Trac unless excluded (with the
fetch-from-submodules / auto-exclude handling on a missing commit);
directory entries contribute their tree's subHeads. -/
def tracEntries (repo : Repo) : Nat → Cache → String → List TreeEntry →
    Except String (Cache × List Trac)
  | 0, _, _, _ => .error "out of fuel"
  | _ + 1, st, _, [] => .ok (st, [])
  | fuel + 1, st, path, e :: rest =>
    match e.mode with
    | .file => tracEntries repo fuel st path rest
    | .dir =>
      match treeObject repo e.hash with
      | none => .error (path ++ e.name ++ ": missing tree")
      | some subEntries =>
        match tracTree repo fuel st (path ++ e.name ++ "/") e.hash subEntries with
        | .error err => .error err
        | .ok (st1, subtrac) =>
          match tracEntries repo fuel st1 path rest with
          | .error err => .error err
          | .ok (st2, heads) => .ok (st2, subtrac.subHeads ++ heads)
    | .submodule =>
      if e.hash ∈ st.excludes then
        -- Pretend it doesn't exist; don't link to it.
        tracEntries repo fuel st path rest
      else
        match lookupA st.tracs e.hash with
        | some subtrac =>
          match tracEntries repo fuel st path rest with
          | .error err => .error err
          | .ok (st2, heads) => .ok (st2, subtrac :: heads)
        | none =>
          let subpath := path ++ e.name ++ "@" ++ shortHash e.hash
          match commitObject repo st e.hash with
          | some sc =>
            match tracCommit repo fuel st subpath e.hash sc with
            | .error err => .error err
            | .ok (st1, subtrac) =>
              match tracEntries repo fuel st1 path rest with
              | .error err => .error err
              | .ok (st2, heads) => .ok (st2, subtrac :: heads)
          | none =>
            -- tryFetchFromSubmodules: search the sub-repositories.
            match lookupA repo.subCommits e.hash with
            | some _ =>
              let st' := { st with
                fetched := st.fetched ++ fetchClosure repo (fuel + 1) [e.hash] }
              match commitObject repo st' e.hash with
              | none => .error (subpath ++ ": missing commit")
              | some sc =>
                match tracCommit repo fuel st' subpath e.hash sc with
                | .error err => .error err
                | .ok (st1, subtrac) =>
                  match tracEntries repo fuel st1 path rest with
                  | .error err => .error err
                  | .ok (st2, heads) => .ok (st2, subtrac :: heads)
            | none =>
              if st.autoexclude then
                tracEntries repo fuel (st.exclude e.hash) path rest
              else
                .error (subpath ++ ": not found. (fetch it manually? or try --exclude)")

end

/-- The reference namespace of the repository: `ResolveRevision` is
modelled as a lookup of the ref name. -/
structure Refs where
  refs : List (String × Hash)
deriving Repr

/-- `Cache.TracByRef`: resolve the ref, fetch the commit, compute its
Trac, and return its synthetic trac commit (absent when the branch
introduces no submodule commits). -/
def tracByRef (repo : Repo) (refs : Refs) (fuel : Nat) (st : Cache)
    (refname : String) : Except String (Cache × Option SynthCommit) :=
  match refs.refs.find? (fun p => p.1 == refname) with
  | none => .error (refname ++ ": reference not found")
  | some (_, h) =>
    match lookupA repo.commits h with
    | none => .error (refname ++ ": object not found")
    | some cd =>
      match tracCommit repo fuel st refname h cd with
      | .error e => .error e
      | .ok (st', t) => .ok (st', t.tracCommit)

/-- `strings.HasSuffix`, at the character level (the library version does
not reduce definitionally). -/
def strEndsWith (s suffix : String) : Bool :=
  decide (suffix.toList.length ≤ s.toList.length) &&
    (s.toList.drop (s.toList.length - suffix.toList.length) == suffix.toList)

/-- `Cache.UpdateBranchRefs`: scan every branch whose name does not end
in `.trac`; branches without submodule commits produce a warning and are
skipped; the rest get a `<branch>.trac` ref set to the synthetic hash in
a second phase.  Returns the ref updates and the warnings issued. -/
def updateBranchRefs (repo : Repo) (refs : Refs) (fuel : Nat) (st : Cache) :
    Except String (Cache × List (String × Hash) × List String) :=
  let step := fun (acc : Except String (Cache × List (String × Hash) × List String))
      (b : String × Hash) =>
    match acc with
    | .error e => .error e
    | .ok (st0, upds, warns) =>
      if strEndsWith b.1 ".trac" then .ok (st0, upds, warns)
      else
        match tracByRef repo refs fuel st0 b.1 with
        | .error e => .error e
        | .ok (st1, none) =>
          .ok (st1, upds,
               warns ++ ["Warning: no submodule commits found for " ++ b.1 ++ "; skipping."])
        | .ok (st1, some tc) => .ok (st1, upds ++ [(b.1 ++ ".trac", tc.hash)], warns)
  refs.refs.foldl step (.ok (st, [], []))

/-! ### CLI model (main in the unnamed main file)

The outcome of one invocation: the exit status, stdout, stderr, and
whether the process died of a runtime panic (nil-pointer dereference),
which in Go terminates the process abnormally with exit status 2. -/

structure CliOut where
  code : Nat
  out : List String
  err : List String
  panicked : Bool
deriving DecidableEq, Repr

/-- `usagef`: print usage and the error to stderr, exit 99. -/
def usagefOut (msg : String) : CliOut :=
  { code := 99, out := [], err := ["<usage>", "fatal: " ++ msg], panicked := false }

/-- `fatalf` = `log.Fatalf`: print to stderr (the log package writes to
stderr) and `os.Exit(1)`. -/
def fatalfOut (msg : String) : CliOut :=
  { code := 1, out := [], err := ["git-subtrac: " ++ msg], panicked := false }

/-- The `cid` command body on the result of `TracByRef`: an error is
fatal; on success the code prints `trac.Hash`, which dereferences a nil
`*object.Commit` when no submodule commits were found. -/
def cidOut (r : Except String (Option SynthCommit)) : CliOut :=
  match r with
  | .error e => fatalfOut e
  | .ok (some tc) => { code := 0, out := [toString tc.hash], err := [], panicked := false }
  | .ok none =>
    -- trac is nil; trac.Hash panics with a nil-pointer dereference.
    { code := 2, out := [],
      err := ["panic: runtime error: invalid memory address or nil pointer dereference"],
      panicked := true }

/-- The control flow of `main`: open the repository (fatal on failure),
require a command (usage error), build the cache (fatal on failure), and
dispatch on the command with its argument-count checks.  The results of
the operations themselves are parameters (they depend on the repository
state). -/
def runMain (args : List String) (openOk : Bool) (cacheOk : Bool)
    (updateResult : Except String Unit)
    (cidResult : Except String (Option SynthCommit))
    (dumpResult : Except String String) : CliOut :=
  if !openOk then fatalfOut "git: open failed"
  else if args.length < 1 then usagefOut "no command specified."
  else if !cacheOk then fatalfOut "NewCache: worktree failed"
  else
    match args with
    | [] => usagefOut "no command specified."
    | cmd :: rest =>
      if cmd = "update" then
        if rest.length ≠ 0 then usagefOut "command 'update' takes no arguments"
        else
          match updateResult with
          | .error e => fatalfOut e
          | .ok _ => { code := 0, out := [], err := [], panicked := false }
      else if cmd = "cid" then
        if rest.length ≠ 1 then usagefOut "command 'cid' takes exactly 1 argument"
        else cidOut cidResult
      else if cmd = "dump" then
        if rest.length < 1 then usagefOut "command 'dump' takes at least 1 argument"
        else
          match dumpResult with
          | .error e => fatalfOut e
          | .ok s => { code := 0, out := [s], err := [], panicked := false }
      else usagefOut ("unknown command " ++ cmd)

/-! ### NewCache: exclusion inputs

`plumbing.NewHash` hex-decodes the string, ignoring the decode error, and
copies the (possibly partial) bytes into a zeroed 20-byte array.  Hashes
here are modelled at the byte level as length-20 byte lists. -/

/-- A 20-byte object hash at the byte level. -/
abbrev GitHash := List Nat

def zeroHash : GitHash := List.replicate 20 0

/-- The value of one hex digit, if valid. -/
def hexVal (c : Char) : Option Nat :=
  if '0' ≤ c ∧ c ≤ '9' then some (c.toNat - '0'.toNat)
  else if 'a' ≤ c ∧ c ≤ 'f' then some (c.toNat - 'a'.toNat + 10)
  else if 'A' ≤ c ∧ c ≤ 'F' then some (c.toNat - 'A'.toNat + 10)
  else none

/-- `hex.Decode`: decode complete byte pairs until an invalid character
or an odd-length tail; the error is reported alongside the bytes decoded
so far (and then ignored by `NewHash`). -/
def hexDecode : List Char → List Nat
  | c1 :: c2 :: rest =>
    match hexVal c1, hexVal c2 with
    | some a, some b => (a * 16 + b) :: hexDecode rest
    | _, _ => []
  | _ => []

/-- `plumbing.NewHash`: copy the partially decoded bytes into a zeroed
20-byte hash. -/
def newHash (s : String) : GitHash :=
  let b := (hexDecode s.toList).take 20
  b ++ List.replicate (20 - b.length) 0

/-- A syntactically valid full hex object hash: 40 hex digits. -/
def isFullHex (s : String) : Prop :=
  s.toList.length = 40 ∧ ∀ c ∈ s.toList, (hexVal c).isSome

instance (s : String) : Decidable (isFullHex s) := by
  unfold isFullHex; infer_instance

/-- `Cache.exclude` at the byte level: insert if absent. -/
def excludeB (l : List GitHash) (h : GitHash) : List GitHash :=
  if l.contains h then l else l ++ [h]

/-- The `bufio.ReadString('\n')` loop of `NewCache`: successive chunks up
to and including a newline.  When the reader hits the end of the input
before a delimiter, `ReadString` returns the remaining data together with
`io.EOF`, and the loop breaks **without** processing that final chunk. -/
def readLinesLoop (acc : List Char) : List Char → List String
  | [] => []  -- err != nil (io.EOF): break, dropping acc
  | c :: rest =>
    if c = '\n' then String.mk (acc ++ [c]) :: readLinesLoop [] rest
    else readLinesLoop (acc ++ [c]) rest

/-- Comment stripping: everything from the first `#` on is dropped. -/
def stripComment (s : String) : String :=
  String.mk (s.toList.takeWhile (fun c => c ≠ '#'))

/-- Whitespace trimming at both ends (`strings.TrimSpace`), at the
character level. -/
def trimChars (l : List Char) : List Char :=
  ((l.dropWhile Char.isWhitespace).reverse.dropWhile Char.isWhitespace).reverse

/-- One parsed line of `.trac-excludes`: strip comments, trim whitespace. -/
def cleanLine (s : String) : String := String.mk (trimChars (stripComment s).toList)

/-- The hash strings a `.trac-excludes` file contributes: every cleaned
nonempty newline-terminated line. -/
def fileExcludeStrings (content : String) : List String :=
  ((readLinesLoop [] content.toList).map cleanLine).filter (fun l => l ≠ "")

/-- The exclusion set built by `NewCache`: first the command-line
`-x`/`--exclude` strings, then (if the file exists) the `.trac-excludes`
lines, each put through `plumbing.NewHash` and `Cache.exclude`.  A missing
file (`content = none`) is not an error. -/
def newCacheExcludes (cmdline : List String) (content : Option String) : List GitHash :=
  let afterCmd := cmdline.foldl (fun l x => excludeB l (newHash x)) []
  match content with
  | none => afterCmd
  | some c => (fileExcludeStrings c).foldl (fun l x => excludeB l (newHash x)) afterCmd

/-! ### Specification-side definitions

Relations and invariants in which the claims are stated. -/

/-- The head hashes already covered by the parent Tracs: the
concatenation of every parent's subHeads hashes (the `seen_heads`
pre-marking described by the spec). -/
def specSeen (parents : List Trac) : List Hash :=
  (parents.map (fun p => p.subHeads.map Trac.hash)).flatten

/-- The spec's `new_heads`: the sub heads whose hash is not already
covered, deduplicated by hash in first-encountered order. -/
def specNewHeads (seen : List Hash) : List Trac → List Trac
  | [] => []
  | h :: rest =>
    if h.hash ∈ seen then specNewHeads seen rest
    else h :: specNewHeads (seen ++ [h.hash]) rest

/-- Append synthetic commits to an accumulator, unique by hash. -/
def dedupSynth (acc : List SynthCommit) : List SynthCommit → List SynthCommit
  | [] => acc
  | c :: rest =>
    if c.hash ∈ acc.map SynthCommit.hash then dedupSynth acc rest
    else dedupSynth (acc ++ [c]) rest

/-- The spec's `inherited_trac_parents`: the unique-by-hash list of the
parents' trac commits, extended by the trac commits of the new heads. -/
def specInherited (parents newHeads : List Trac) : List SynthCommit :=
  dedupSynth (dedupSynth [] (parents.filterMap Trac.tracCommit))
    (newHeads.filterMap Trac.tracCommit)

/-- Reachability along parent edges inside the store of synthetic
commits written during the run. -/
inductive Reaches (ws : List SynthCommit) : Hash → Hash → Prop where
  | refl (a : Hash) : Reaches ws a a
  | step (c : SynthCommit) (p b : Hash) :
      c ∈ ws → p ∈ c.parentHashes → Reaches ws p b → Reaches ws c.hash b

/-- `HeadIn t x`: the hash `x` occurs among the submodule heads of `t` or
of one of its (transitive) parent Tracs — i.e. `x` is a sub-ref commit
recorded for this commit or one of its ancestors. -/
inductive HeadIn : Trac → Hash → Prop where
  | here (t hd : Trac) : hd ∈ t.subHeads → HeadIn t hd.hash
  | up (t p : Trac) (x : Hash) : p ∈ t.parents → HeadIn p x → HeadIn t x

/-- Source-ancestry inside the computed Trac structure: `AncTrac t b`
states that `b` is `t` itself or a transitive parent of `t`. -/
inductive AncTrac : Trac → Trac → Prop where
  | refl (t : Trac) : AncTrac t t
  | step (t p b : Trac) : p ∈ t.parents → AncTrac p b → AncTrac t b

/-- A linear chain with pointwise-hash-equal subHeads, from `t` down to
`b`: every link has exactly one parent and identical head hashes. -/
inductive Unch : Trac → Trac → Prop where
  | refl (t : Trac) : Unch t t
  | step (t p b : Trac) : t.parents = [p] →
      t.subHeads.map Trac.hash = p.subHeads.map Trac.hash →
      Unch p b → Unch t b

/-- All synthetic commits referenced by a Trac are in the written store. -/
def HeadInv (ws : List SynthCommit) (t : Trac) : Prop :=
  ∀ tc, t.tracCommit = some tc → tc ∈ ws

/-- The invariant of a commit Trac with respect to the written store:
its trac commit (if any) is written and reaches all of its heads and all
of its parents' trac commits; absence of a trac commit means there are no
heads anywhere in its ancestry; a single-parent link with unchanged head
hashes shares the parent's trac commit; a parentless commit with heads
has a trac commit created for it (message cites its own hash). -/
inductive CTracInv (ws : List SynthCommit) : Trac → Prop where
  | intro (t : Trac)
      (hmem : ∀ tc, t.tracCommit = some tc → tc ∈ ws)
      (hheads : ∀ tc, t.tracCommit = some tc → ∀ hd ∈ t.subHeads,
        Reaches ws tc.hash hd.hash)
      (hpar : ∀ tc, t.tracCommit = some tc → ∀ p ∈ t.parents, ∀ ptc,
        p.tracCommit = some ptc → Reaches ws tc.hash ptc.hash)
      (hnone1 : t.tracCommit = none → t.subHeads = [])
      (hnone2 : t.tracCommit = none → ∀ p ∈ t.parents, p.tracCommit = none)
      (hunch : ∀ p, t.parents = [p] →
        t.subHeads.map Trac.hash = p.subHeads.map Trac.hash →
        t.tracCommit = p.tracCommit)
      (hintro : t.parents = [] → t.subHeads ≠ [] →
        ∃ tc, t.tracCommit = some tc ∧ tc.message = tracMessage t.hash)
      (hrec : ∀ p ∈ t.parents, CTracInv ws p)
      (hheadinv : ∀ hd ∈ t.subHeads, HeadInv ws hd) :
      CTracInv ws t

/-- The invariant of a tree Trac: no trac commit, no parents, and all
heads reference only written synthetic commits. -/
def TTracInv (ws : List SynthCommit) (t : Trac) : Prop :=
  t.tracCommit = none ∧ t.parents = [] ∧ ∀ hd ∈ t.subHeads, HeadInv ws hd

/-- `SubRefIn repo th x`: the hash `x` appears as a submodule entry in
the tree `th` or (recursively) in one of its subdirectories, as stored. -/
inductive SubRefIn (repo : Repo) : Hash → Hash → Prop where
  | sub (th : Hash) (E : List TreeEntry) (e : TreeEntry) :
      lookupA repo.trees th = some E → e ∈ E → e.mode = .submodule →
      SubRefIn repo th e.hash
  | dir (th : Hash) (E : List TreeEntry) (e : TreeEntry) (x : Hash) :
      lookupA repo.trees th = some E → e ∈ E → e.mode = .dir →
      SubRefIn repo e.hash x → SubRefIn repo th x

/-- `CommitSubRef repo c x`: the hash `x` appears as a submodule entry in
a tree reachable from commit `c` or from one of `c`'s ancestors (in the
host store). -/
inductive CommitSubRef (repo : Repo) : Hash → Hash → Prop where
  | tree (c : Hash) (cd : CommitData) (x : Hash) :
      lookupA repo.commits c = some cd → SubRefIn repo cd.tree x →
      CommitSubRef repo c x
  | parent (c : Hash) (cd : CommitData) (p x : Hash) :
      lookupA repo.commits c = some cd → p ∈ cd.parents →
      CommitSubRef repo p x → CommitSubRef repo c x

/-- Tree coverage: every sub-ref in the stored tree closure of `th` is
either among the Trac's heads or excluded. -/
def TreeCov (repo : Repo) (ex : List Hash) (t : Trac) (th : Hash) : Prop :=
  ∀ x, SubRefIn repo th x → (∃ hd ∈ t.subHeads, hd.hash = x) ∨ x ∈ ex

/-- Commit coverage: every sub-ref in any tree reachable from the commit
or its ancestors is recorded as some head in the Trac's ancestry, or
excluded. -/
def CommitCov (repo : Repo) (ex : List Hash) (t : Trac) (h : Hash) : Prop :=
  ∀ x, CommitSubRef repo h x → HeadIn t x ∨ x ∈ ex

/-- A hash resolvable as a commit: present in the host store or in some
sub-repository. -/
def CResolvable (repo : Repo) (h : Hash) : Prop :=
  (lookupA repo.commits h).isSome ∨ (lookupA repo.subCommits h).isSome

/-- A hash present as a tree object. -/
def TPresent (repo : Repo) (h : Hash) : Prop :=
  (lookupA repo.trees h).isSome

/-- Store well-formedness: no hash is both a commit and a tree (content
addressing keys objects of different types to different hashes). -/
def WfRepo (repo : Repo) : Prop :=
  (∀ p ∈ repo.commits, lookupA repo.trees p.1 = none) ∧
  (∀ p ∈ repo.subCommits, lookupA repo.trees p.1 = none)

instance (repo : Repo) : Decidable (WfRepo repo) := by
  unfold WfRepo; infer_instance

/-- List extension: `b` is `a` with entries appended. -/
def ListExt {α : Type} (a b : List α) : Prop := ∃ t, b = a ++ t

/-- State extension of one step of the traversal: every component of the
cache grows by appending only. -/
def Extends (st st' : Cache) : Prop :=
  st'.autoexclude = st.autoexclude ∧
  ListExt st.excludes st'.excludes ∧
  ListExt st.tracs st'.tracs ∧
  ListExt st.fetched st'.fetched ∧
  ListExt st.written st'.written

/-- Hashes newly added to the exclusion set during a step were, at the
start of the step, not in the Trac cache and not resolvable as commits
anywhere (they are auto-excluded missing objects). -/
def NewExcludesOK (repo : Repo) (st st' : Cache) : Prop :=
  ∀ h, h ∈ st'.excludes → h ∈ st.excludes ∨
    (lookupA st.tracs h = none ∧ lookupA repo.commits h = none ∧
     lookupA repo.subCommits h = none)

def StepOK (repo : Repo) (st st' : Cache) : Prop :=
  Extends st st' ∧ NewExcludesOK repo st st'

/-- Every fetched object is a faithful copy from a sub-repository. -/
def FetchedSub (repo : Repo) (st : Cache) : Prop :=
  ∀ p ∈ st.fetched, lookupA repo.subCommits p.1 = some p.2

/-- The cache invariant: every cached Trac is keyed by its own hash and
is either a commit Trac with the commit invariants and commit coverage,
or a tree Trac with the tree invariants and tree coverage. -/
def CacheInvAt (repo : Repo) (st : Cache) : Prop :=
  ∀ pr ∈ st.tracs, (pr.2 : Trac).hash = pr.1 ∧
    ((CResolvable repo pr.1 ∧ CTracInv st.written pr.2 ∧
        CommitCov repo st.excludes pr.2 pr.1) ∨
     (TPresent repo pr.1 ∧ TTracInv st.written pr.2 ∧
        TreeCov repo st.excludes pr.2 pr.1))

/-- The contribution of one tree entry to a tree Trac's subHeads, as the
spec describes it: files contribute nothing, a non-excluded submodule
entry contributes exactly the one Trac computed for its hash, an excluded
submodule entry contributes nothing, and a directory entry contributes
the recursively computed subHeads of its tree's Trac. -/
def EntryContrib (st' : Cache) (e : TreeEntry) (contrib : List Trac) : Prop :=
  match e.mode with
  | .file => contrib = []
  | .dir => ∃ tr, (e.hash, tr) ∈ st'.tracs ∧ tr.hash = e.hash ∧ contrib = tr.subHeads
  | .submodule =>
      (e.hash ∈ st'.excludes ∧ contrib = []) ∨
      (e.hash ∉ st'.excludes ∧
        ∃ tr, (e.hash, tr) ∈ st'.tracs ∧ tr.hash = e.hash ∧ contrib = [tr])

/-! ### Basic lemmas about lookups and state extension -/

theorem lookupA_mem {α : Type} {l : List (Hash × α)} {h : Hash} {v : α}
    (hl : lookupA l h = some v) : (h, v) ∈ l := by
  unfold lookupA at hl
  cases hfind : l.find? (fun p => p.1 == h) with
  | none => simp [hfind] at hl
  | some pr =>
    simp [hfind] at hl
    have hmem := List.mem_of_find?_eq_some hfind
    have hbeq := List.find?_some hfind
    have h1 : pr.1 = h := by simpa using hbeq
    have : pr = (h, v) := by
      cases pr; simp_all
    rwa [this] at hmem

theorem lookupA_append_some {α : Type} {a b : List (Hash × α)} {h : Hash} {v : α}
    (hl : lookupA a h = some v) : lookupA (a ++ b) h = some v := by
  induction a with
  | nil => simp [lookupA] at hl
  | cons x rest ih =>
    unfold lookupA at hl ⊢
    by_cases hx : x.1 == h
    · simp [List.find?, hx] at hl ⊢; exact hl
    · simp only [List.cons_append, List.find?, hx] at hl ⊢
      exact ih hl

theorem lookupA_append_none {α : Type} {a b : List (Hash × α)} {h : Hash}
    (hl : lookupA (a ++ b) h = none) : lookupA a h = none := by
  cases ha : lookupA a h with
  | none => rfl
  | some v => rw [lookupA_append_some ha] at hl; cases hl

theorem ListExt.extRefl {α : Type} (a : List α) : ListExt a a := ⟨[], by simp⟩

theorem ListExt.extTrans {α : Type} {a b c : List α}
    (h1 : ListExt a b) (h2 : ListExt b c) : ListExt a c := by
  obtain ⟨t1, rfl⟩ := h1; obtain ⟨t2, rfl⟩ := h2
  exact ⟨t1 ++ t2, by simp⟩

theorem ListExt.mem {α : Type} {a b : List α} (h : ListExt a b) {x : α}
    (hx : x ∈ a) : x ∈ b := by
  obtain ⟨t, rfl⟩ := h; exact List.mem_append_left _ hx

theorem ListExt.lookup_some {α : Type} {a b : List (Hash × α)} (h : ListExt a b)
    {k : Hash} {v : α} (hl : lookupA a k = some v) : lookupA b k = some v := by
  obtain ⟨t, rfl⟩ := h; exact lookupA_append_some hl

theorem ListExt.lookup_none {α : Type} {a b : List (Hash × α)} (h : ListExt a b)
    {k : Hash} (hl : lookupA b k = none) : lookupA a k = none := by
  obtain ⟨t, rfl⟩ := h; exact lookupA_append_none hl

theorem Extends.extendsRefl (st : Cache) : Extends st st :=
  ⟨rfl, ListExt.extRefl _, ListExt.extRefl _, ListExt.extRefl _, ListExt.extRefl _⟩

theorem Extends.extendsTrans {a b c : Cache} (h1 : Extends a b) (h2 : Extends b c) :
    Extends a c :=
  ⟨h2.1.trans h1.1, h1.2.1.extTrans h2.2.1, h1.2.2.1.extTrans h2.2.2.1,
   h1.2.2.2.1.extTrans h2.2.2.2.1, h1.2.2.2.2.extTrans h2.2.2.2.2⟩

theorem StepOK.stepRefl (repo : Repo) (st : Cache) : StepOK repo st st :=
  ⟨Extends.extendsRefl st, fun _ hh => Or.inl hh⟩

theorem StepOK.stepTrans {repo : Repo} {a b c : Cache}
    (h1 : StepOK repo a b) (h2 : StepOK repo b c) : StepOK repo a c := by
  refine ⟨h1.1.extendsTrans h2.1, fun h hh => ?_⟩
  rcases h2.2 h hh with hb | ⟨hc1, hc2, hc3⟩
  · exact h1.2 h hb
  · exact Or.inr ⟨h1.1.2.2.1.lookup_none hc1, hc2, hc3⟩

theorem Reaches.reachesMono {ws ws' : List SynthCommit} (hws : ListExt ws ws')
    {a b : Hash} (h : Reaches ws a b) : Reaches ws' a b := by
  induction h with
  | refl a => exact Reaches.refl a
  | step c p b hc hp _ ih => exact Reaches.step c p b (hws.mem hc) hp ih

theorem Reaches.comp {ws : List SynthCommit} {a b c : Hash}
    (h1 : Reaches ws a b) (h2 : Reaches ws b c) : Reaches ws a c := by
  induction h1 with
  | refl a => exact h2
  | step d p m hd hp _ ih => exact Reaches.step d p c hd hp (ih h2)

theorem HeadInv.headInvMono {ws ws' : List SynthCommit} (hws : ListExt ws ws')
    {t : Trac} (h : HeadInv ws t) : HeadInv ws' t :=
  fun tc htc => hws.mem (h tc htc)

theorem CTracInv.ctracMono {ws ws' : List SynthCommit} (hws : ListExt ws ws')
    {t : Trac} (h : CTracInv ws t) : CTracInv ws' t := by
  induction h with
  | intro t hmem hheads hpar hnone1 hnone2 hunch hintro hrec hheadinv ih =>
    refine CTracInv.intro t (fun tc htc => hws.mem (hmem tc htc))
      (fun tc htc hd hhd => (hheads tc htc hd hhd).reachesMono hws)
      (fun tc htc p hp ptc hptc => (hpar tc htc p hp ptc hptc).reachesMono hws)
      hnone1 hnone2 hunch hintro (fun p hp => ih p hp)
      (fun hd hhd => (hheadinv hd hhd).headInvMono hws)

theorem TTracInv.ttracMono {ws ws' : List SynthCommit} (hws : ListExt ws ws')
    {t : Trac} (h : TTracInv ws t) : TTracInv ws' t :=
  ⟨h.1, h.2.1, fun hd hhd => (h.2.2 hd hhd).headInvMono hws⟩

theorem TreeCov.treeCovMono {repo : Repo} {ex ex' : List Hash} (hex : ListExt ex ex')
    {t : Trac} {th : Hash} (h : TreeCov repo ex t th) : TreeCov repo ex' t th :=
  fun x hx => (h x hx).imp id hex.mem

theorem CommitCov.commitCovMono {repo : Repo} {ex ex' : List Hash} (hex : ListExt ex ex')
    {t : Trac} {ch : Hash} (h : CommitCov repo ex t ch) : CommitCov repo ex' t ch :=
  fun x hx => (h x hx).imp id hex.mem

theorem fetchClosure_sub {repo : Repo} : ∀ (fuel : Nat) (hs : List Hash),
    ∀ p ∈ fetchClosure repo fuel hs, lookupA repo.subCommits p.1 = some p.2 := by
  intro fuel
  induction fuel with
  | zero => intro hs p hp; simp [fetchClosure] at hp
  | succ f ih =>
    intro hs p hp
    match hs with
    | [] => simp [fetchClosure] at hp
    | h :: rest =>
      rw [fetchClosure] at hp
      cases hsub : lookupA repo.subCommits h with
      | some cd =>
        rw [hsub] at hp
        rcases List.mem_cons.mp hp with hp | hp
        · subst hp; exact hsub
        · exact ih _ p hp
      | none =>
        rw [hsub] at hp
        exact ih _ p hp

theorem forall₂_mem {α β : Type} {R : α → β → Prop} {as : List α} {bs : List β}
    (h : List.Forall₂ R as bs) {a : α} (ha : a ∈ as) : ∃ b ∈ bs, R a b := by
  induction h with
  | nil => cases ha
  | cons hr _ ih =>
    rcases List.mem_cons.mp ha with rfl | ha
    · exact ⟨_, List.mem_cons_self _ _, hr⟩
    · obtain ⟨b, hb, hrb⟩ := ih ha
      exact ⟨b, List.mem_cons_of_mem _ hb, hrb⟩

theorem wf_not_tree {repo : Repo} (hwf : WfRepo repo) {h : Hash}
    (hc : CResolvable repo h) : ¬ TPresent repo h := by
  intro ht
  rcases hc with hc | hc
  · obtain ⟨v, hv⟩ := Option.isSome_iff_exists.mp hc
    have hm := lookupA_mem hv
    have := hwf.1 (h, v) hm
    simp only [TPresent, this] at ht
    cases ht
  · obtain ⟨v, hv⟩ := Option.isSome_iff_exists.mp hc
    have hm := lookupA_mem hv
    have := hwf.2 (h, v) hm
    simp only [TPresent, this] at ht
    cases ht

/-! ### Lemmas about the synthesis work-list loops -/

theorem specSeen_cons (p : Trac) (ps : List Trac) :
    specSeen (p :: ps) = p.subHeads.map Trac.hash ++ specSeen ps := by
  simp [specSeen]

theorem parentsPass_seen : ∀ (ps : List Trac) (sh stt : List Hash)
    (tcs : List SynthCommit), (parentsPass ps sh stt tcs).1 = sh ++ specSeen ps := by
  intro ps
  induction ps with
  | nil => intro sh stt tcs; simp [parentsPass, specSeen]
  | cons p rest ih =>
    intro sh stt tcs
    rw [specSeen_cons]
    cases hpc : p.tracCommit with
    | none =>
      simp only [parentsPass, hpc]
      rw [ih]; simp
    | some tc =>
      by_cases hct : tc.hash ∈ stt
      · simp only [parentsPass, hpc, if_pos hct]
        rw [ih]; simp
      · simp only [parentsPass, hpc, if_neg hct]
        rw [ih]; simp

theorem parentsPass_stt_ext : ∀ (ps : List Trac) (sh stt : List Hash)
    (tcs : List SynthCommit), ListExt stt (parentsPass ps sh stt tcs).2.1 := by
  intro ps
  induction ps with
  | nil => intro sh stt tcs; exact ListExt.extRefl _
  | cons p rest ih =>
    intro sh stt tcs
    cases hpc : p.tracCommit with
    | none => simp only [parentsPass, hpc]; exact ih _ _ _
    | some tc =>
      by_cases hct : tc.hash ∈ stt
      · simp only [parentsPass, hpc, if_pos hct]; exact ih _ _ _
      · simp only [parentsPass, hpc, if_neg hct]
        exact ListExt.extTrans ⟨[tc.hash], rfl⟩ (ih _ _ _)

theorem parentsPass_tracs_ext : ∀ (ps : List Trac) (sh stt : List Hash)
    (tcs : List SynthCommit), ListExt tcs (parentsPass ps sh stt tcs).2.2 := by
  intro ps
  induction ps with
  | nil => intro sh stt tcs; exact ListExt.extRefl _
  | cons p rest ih =>
    intro sh stt tcs
    cases hpc : p.tracCommit with
    | none => simp only [parentsPass, hpc]; exact ih _ _ _
    | some tc =>
      by_cases hct : tc.hash ∈ stt
      · simp only [parentsPass, hpc, if_pos hct]; exact ih _ _ _
      · simp only [parentsPass, hpc, if_neg hct]
        exact ListExt.extTrans ⟨[tc], rfl⟩ (ih _ _ _)

theorem parentsPass_ptc_cover : ∀ (ps : List Trac) (sh stt : List Hash)
    (tcs : List SynthCommit), ∀ p ∈ ps, ∀ ptc, p.tracCommit = some ptc →
    ptc.hash ∈ (parentsPass ps sh stt tcs).2.1 := by
  intro ps
  induction ps with
  | nil => intro sh stt tcs p hp; cases hp
  | cons q rest ih =>
    intro sh stt tcs p hp ptc hptc
    rcases List.mem_cons.mp hp with heq | hp
    · subst heq
      by_cases hct : ptc.hash ∈ stt
      · simp only [parentsPass, hptc, if_pos hct]
        exact (parentsPass_stt_ext rest _ _ _).mem hct
      · simp only [parentsPass, hptc, if_neg hct]
        exact (parentsPass_stt_ext rest _ _ _).mem (by simp)
    · cases hqc : q.tracCommit with
      | none => simp only [parentsPass, hqc]; exact ih _ _ _ p hp ptc hptc
      | some tc =>
        by_cases hct : tc.hash ∈ stt
        · simp only [parentsPass, hqc, if_pos hct]; exact ih _ _ _ p hp ptc hptc
        · simp only [parentsPass, hqc, if_neg hct]; exact ih _ _ _ p hp ptc hptc

theorem parentsPass_stt_corr : ∀ (ps : List Trac) (sh stt : List Hash)
    (tcs : List SynthCommit), stt = tcs.map SynthCommit.hash →
    (parentsPass ps sh stt tcs).2.1 =
      ((parentsPass ps sh stt tcs).2.2).map SynthCommit.hash := by
  intro ps
  induction ps with
  | nil => intro sh stt tcs hcorr; simpa [parentsPass] using hcorr
  | cons q rest ih =>
    intro sh stt tcs hcorr
    cases hqc : q.tracCommit with
    | none => simp only [parentsPass, hqc]; exact ih _ _ _ hcorr
    | some tc =>
      by_cases hct : tc.hash ∈ stt
      · simp only [parentsPass, hqc, if_pos hct]; exact ih _ _ _ hcorr
      · simp only [parentsPass, hqc, if_neg hct]
        exact ih _ _ _ (by simp [hcorr])

theorem parentsPass_tracs_src : ∀ (ps : List Trac) (sh stt : List Hash)
    (tcs : List SynthCommit), ∀ c ∈ (parentsPass ps sh stt tcs).2.2,
    c ∈ tcs ∨ ∃ p ∈ ps, p.tracCommit = some c := by
  intro ps
  induction ps with
  | nil => intro sh stt tcs c hc; exact Or.inl (by simpa [parentsPass] using hc)
  | cons q rest ih =>
    intro sh stt tcs c hc
    cases hqc : q.tracCommit with
    | none =>
      simp only [parentsPass, hqc] at hc
      rcases ih _ _ _ c hc with hl | ⟨p, hp, hpc⟩
      · exact Or.inl hl
      · exact Or.inr ⟨p, List.mem_cons_of_mem _ hp, hpc⟩
    | some tc =>
      by_cases hct : tc.hash ∈ stt
      · simp only [parentsPass, hqc, if_pos hct] at hc
        rcases ih _ _ _ c hc with hl | ⟨p, hp, hpc⟩
        · exact Or.inl hl
        · exact Or.inr ⟨p, List.mem_cons_of_mem _ hp, hpc⟩
      · simp only [parentsPass, hqc, if_neg hct] at hc
        rcases ih _ _ _ c hc with hl | ⟨p, hp, hpc⟩
        · rcases List.mem_append.mp hl with hll | hlr
          · exact Or.inl hll
          · have hceq : c = tc := by simpa using hlr
            subst hceq
            exact Or.inr ⟨q, List.mem_cons_self _ _, hqc⟩
        · exact Or.inr ⟨p, List.mem_cons_of_mem _ hp, hpc⟩

theorem headsPass_nh_ext : ∀ (hs : List Trac) (sh stt : List Hash)
    (nh : List Trac) (tcs : List SynthCommit),
    ListExt nh (headsPass hs sh stt nh tcs).2.2.1 := by
  intro hs
  induction hs with
  | nil => intro sh stt nh tcs; exact ListExt.extRefl _
  | cons q rest ih =>
    intro sh stt nh tcs
    by_cases hc : q.hash ∈ sh
    · simp only [headsPass, if_pos hc]; exact ih _ _ _ _
    · cases hqc : q.tracCommit with
      | none =>
        simp only [headsPass, if_neg hc, hqc]
        exact ListExt.extTrans ⟨[q], rfl⟩ (ih _ _ _ _)
      | some tc =>
        by_cases hct : tc.hash ∈ stt
        · simp only [headsPass, if_neg hc, hqc, if_pos hct]
          exact ListExt.extTrans ⟨[q], rfl⟩ (ih _ _ _ _)
        · simp only [headsPass, if_neg hc, hqc, if_neg hct]
          exact ListExt.extTrans ⟨[q], rfl⟩ (ih _ _ _ _)

theorem headsPass_tracs_ext : ∀ (hs : List Trac) (sh stt : List Hash)
    (nh : List Trac) (tcs : List SynthCommit),
    ListExt tcs (headsPass hs sh stt nh tcs).2.2.2 := by
  intro hs
  induction hs with
  | nil => intro sh stt nh tcs; exact ListExt.extRefl _
  | cons q rest ih =>
    intro sh stt nh tcs
    by_cases hc : q.hash ∈ sh
    · simp only [headsPass, if_pos hc]; exact ih _ _ _ _
    · cases hqc : q.tracCommit with
      | none => simp only [headsPass, if_neg hc, hqc]; exact ih _ _ _ _
      | some tc =>
        by_cases hct : tc.hash ∈ stt
        · simp only [headsPass, if_neg hc, hqc, if_pos hct]; exact ih _ _ _ _
        · simp only [headsPass, if_neg hc, hqc, if_neg hct]
          exact ListExt.extTrans ⟨[tc], rfl⟩ (ih _ _ _ _)

theorem headsPass_stt_ext : ∀ (hs : List Trac) (sh stt : List Hash)
    (nh : List Trac) (tcs : List SynthCommit),
    ListExt stt (headsPass hs sh stt nh tcs).2.1 := by
  intro hs
  induction hs with
  | nil => intro sh stt nh tcs; exact ListExt.extRefl _
  | cons q rest ih =>
    intro sh stt nh tcs
    by_cases hc : q.hash ∈ sh
    · simp only [headsPass, if_pos hc]; exact ih _ _ _ _
    · cases hqc : q.tracCommit with
      | none => simp only [headsPass, if_neg hc, hqc]; exact ih _ _ _ _
      | some tc =>
        by_cases hct : tc.hash ∈ stt
        · simp only [headsPass, if_neg hc, hqc, if_pos hct]; exact ih _ _ _ _
        · simp only [headsPass, if_neg hc, hqc, if_neg hct]
          exact ListExt.extTrans ⟨[tc.hash], rfl⟩ (ih _ _ _ _)

theorem headsPass_cover : ∀ (hs : List Trac) (sh stt : List Hash)
    (nh : List Trac) (tcs : List SynthCommit), ∀ hd ∈ hs,
    hd.hash ∈ sh ∨ hd.hash ∈ ((headsPass hs sh stt nh tcs).2.2.1).map Trac.hash := by
  intro hs
  induction hs with
  | nil => intro sh stt nh tcs hd hhd; cases hhd
  | cons q rest ih =>
    intro sh stt nh tcs hd hhd
    by_cases hc : q.hash ∈ sh
    · simp only [headsPass, if_pos hc]
      rcases List.mem_cons.mp hhd with heq | hhd
      · exact Or.inl (heq ▸ hc)
      · exact ih _ _ _ _ hd hhd
    · have hmemnew : ∀ (stt' : List Hash) (tcs' : List SynthCommit),
          q.hash ∈ ((headsPass rest (sh ++ [q.hash]) stt' (nh ++ [q]) tcs').2.2.1).map
            Trac.hash := by
        intro stt' tcs'
        have hm : q ∈ nh ++ [q] := by simp
        have := (headsPass_nh_ext rest (sh ++ [q.hash]) stt' (nh ++ [q]) tcs').mem hm
        exact List.mem_map.mpr ⟨q, this, rfl⟩
      have step : ∀ (stt' : List Hash) (tcs' : List SynthCommit),
          hd.hash ∈ sh ∨ hd.hash ∈
            ((headsPass rest (sh ++ [q.hash]) stt' (nh ++ [q]) tcs').2.2.1).map
              Trac.hash := by
        intro stt' tcs'
        rcases List.mem_cons.mp hhd with heq | hhd'
        · exact Or.inr (heq ▸ hmemnew _ _)
        · rcases ih (sh ++ [q.hash]) stt' (nh ++ [q]) tcs' hd hhd' with hin | hin
          · rcases List.mem_append.mp hin with hl | hr
            · exact Or.inl hl
            · have heq2 : hd.hash = q.hash := by simpa using hr
              rw [heq2]
              exact Or.inr (hmemnew _ _)
          · exact Or.inr hin
      cases hqc : q.tracCommit with
      | none => simp only [headsPass, if_neg hc, hqc]; exact step _ _
      | some tc =>
        by_cases hct : tc.hash ∈ stt
        · simp only [headsPass, if_neg hc, hqc, if_pos hct]; exact step _ _
        · simp only [headsPass, if_neg hc, hqc, if_neg hct]; exact step _ _

theorem headsPass_nh_src : ∀ (hs : List Trac) (sh stt : List Hash)
    (nh : List Trac) (tcs : List SynthCommit), ∀ hd ∈ (headsPass hs sh stt nh tcs).2.2.1,
    hd ∈ nh ∨ hd ∈ hs := by
  intro hs
  induction hs with
  | nil => intro sh stt nh tcs hd hhd; exact Or.inl (by simpa [headsPass] using hhd)
  | cons q rest ih =>
    intro sh stt nh tcs hd hhd
    have step : ∀ (sh' stt' : List Hash) (nh' : List Trac) (tcs' : List SynthCommit),
        (nh' = nh ∨ nh' = nh ++ [q]) →
        hd ∈ (headsPass rest sh' stt' nh' tcs').2.2.1 → hd ∈ nh ∨ hd ∈ q :: rest := by
      intro sh' stt' nh' tcs' hnh hmem
      rcases ih sh' stt' nh' tcs' hd hmem with hl | hr
      · rcases hnh with heq | heq
        · exact Or.inl (heq ▸ hl)
        · rw [heq] at hl
          rcases List.mem_append.mp hl with hll | hlr
          · exact Or.inl hll
          · have heq2 : hd = q := by simpa using hlr
            exact Or.inr (heq2 ▸ List.mem_cons_self _ _)
      · exact Or.inr (List.mem_cons_of_mem _ hr)
    by_cases hc : q.hash ∈ sh
    · simp only [headsPass, if_pos hc] at hhd
      exact step _ _ _ _ (Or.inl rfl) hhd
    · cases hqc : q.tracCommit with
      | none =>
        simp only [headsPass, if_neg hc, hqc] at hhd
        exact step _ _ _ _ (Or.inr rfl) hhd
      | some tc =>
        by_cases hct : tc.hash ∈ stt
        · simp only [headsPass, if_neg hc, hqc, if_pos hct] at hhd
          exact step _ _ _ _ (Or.inr rfl) hhd
        · simp only [headsPass, if_neg hc, hqc, if_neg hct] at hhd
          exact step _ _ _ _ (Or.inr rfl) hhd

theorem headsPass_tracs_src : ∀ (hs : List Trac) (sh stt : List Hash)
    (nh : List Trac) (tcs : List SynthCommit), ∀ c ∈ (headsPass hs sh stt nh tcs).2.2.2,
    c ∈ tcs ∨ ∃ hd ∈ hs, hd.tracCommit = some c := by
  intro hs
  induction hs with
  | nil => intro sh stt nh tcs c hc; exact Or.inl (by simpa [headsPass] using hc)
  | cons q rest ih =>
    intro sh stt nh tcs c hc
    have step : ∀ (sh' stt' : List Hash) (nh' : List Trac) (tcs' : List SynthCommit),
        (tcs' = tcs ∨ ∃ c2, tcs' = tcs ++ [c2] ∧ q.tracCommit = some c2) →
        c ∈ (headsPass rest sh' stt' nh' tcs').2.2.2 → c ∈ tcs ∨
          ∃ hd ∈ q :: rest, hd.tracCommit = some c := by
      intro sh' stt' nh' tcs' htcs hmem
      rcases ih sh' stt' nh' tcs' c hmem with hl | ⟨hd, hhd, hhdc⟩
      · rcases htcs with heq | ⟨c2, heq, hqc⟩
        · exact Or.inl (heq ▸ hl)
        · rw [heq] at hl
          rcases List.mem_append.mp hl with hll | hlr
          · exact Or.inl hll
          · have heq2 : c = c2 := by simpa using hlr
            subst heq2
            exact Or.inr ⟨q, List.mem_cons_self _ _, hqc⟩
      · exact Or.inr ⟨hd, List.mem_cons_of_mem _ hhd, hhdc⟩
    by_cases hcc : q.hash ∈ sh
    · simp only [headsPass, if_pos hcc] at hc
      exact step _ _ _ _ (Or.inl rfl) hc
    · cases hqc : q.tracCommit with
      | none =>
        simp only [headsPass, if_neg hcc, hqc] at hc
        exact step _ _ _ _ (Or.inl rfl) hc
      | some tc =>
        by_cases hct : tc.hash ∈ stt
        · simp only [headsPass, if_neg hcc, hqc, if_pos hct] at hc
          exact step _ _ _ _ (Or.inl rfl) hc
        · simp only [headsPass, if_neg hcc, hqc, if_neg hct] at hc
          exact step _ _ _ _ (Or.inr ⟨tc, rfl, hqc⟩) hc

theorem headsPass_all_seen : ∀ (hs : List Trac) (sh stt : List Hash)
    (nh : List Trac) (tcs : List SynthCommit), (∀ hd ∈ hs, hd.hash ∈ sh) →
    headsPass hs sh stt nh tcs = (sh, stt, nh, tcs) := by
  intro hs
  induction hs with
  | nil => intro sh stt nh tcs _; rfl
  | cons q rest ih =>
    intro sh stt nh tcs hall
    have hc : q.hash ∈ sh := hall q (List.mem_cons_self _ _)
    simp only [headsPass, if_pos hc]
    exact ih _ _ _ _ (fun hd hhd => hall hd (List.mem_cons_of_mem _ hhd))

theorem headsPass_stt_corr : ∀ (hs : List Trac) (sh stt : List Hash)
    (nh : List Trac) (tcs : List SynthCommit), stt = tcs.map SynthCommit.hash →
    (headsPass hs sh stt nh tcs).2.1 =
      ((headsPass hs sh stt nh tcs).2.2.2).map SynthCommit.hash := by
  intro hs
  induction hs with
  | nil => intro sh stt nh tcs hcorr; simpa [headsPass] using hcorr
  | cons q rest ih =>
    intro sh stt nh tcs hcorr
    by_cases hc : q.hash ∈ sh
    · simp only [headsPass, if_pos hc]; exact ih _ _ _ _ hcorr
    · cases hqc : q.tracCommit with
      | none => simp only [headsPass, if_neg hc, hqc]; exact ih _ _ _ _ hcorr
      | some tc =>
        by_cases hct : tc.hash ∈ stt
        · simp only [headsPass, if_neg hc, hqc, if_pos hct]; exact ih _ _ _ _ hcorr
        · simp only [headsPass, if_neg hc, hqc, if_neg hct]
          exact ih _ _ _ _ (by simp [hcorr])

/-! ### Auxiliary lemmas for the main invariant induction -/

theorem forall₂_mem_right {α β : Type} {R : α → β → Prop} {as : List α} {bs : List β}
    (h : List.Forall₂ R as bs) {b : β} (hb : b ∈ bs) : ∃ a ∈ as, R a b := by
  induction h with
  | nil => cases hb
  | cons hr _ ih =>
    rcases List.mem_cons.mp hb with rfl | hb
    · exact ⟨_, List.mem_cons_self _ _, hr⟩
    · obtain ⟨a, ha, hra⟩ := ih hb
      exact ⟨a, List.mem_cons_of_mem _ ha, hra⟩

theorem lookupA_isSome_of_mem {α : Type} {l : List (Hash × α)} {h : Hash} {v : α}
    (hm : (h, v) ∈ l) : (lookupA l h).isSome := by
  induction l with
  | nil => cases hm
  | cons x rest ih =>
    by_cases hx : x.1 == h
    · simp [lookupA, List.find?, hx]
    · rcases List.mem_cons.mp hm with heq | hm'
      · rw [← heq] at hx; simp at hx
      · simp only [lookupA, List.find?, hx]
        exact ih hm'

theorem lookupA_append_or {α : Type} {a b : List (Hash × α)} {h : Hash} {v : α}
    (hl : lookupA (a ++ b) h = some v) :
    lookupA a h = some v ∨ (lookupA a h = none ∧ lookupA b h = some v) := by
  induction a with
  | nil => exact Or.inr ⟨rfl, by simpa [lookupA] using hl⟩
  | cons x rest ih =>
    by_cases hx : x.1 == h
    · simp only [lookupA, List.cons_append, List.find?, hx] at hl ⊢
      exact Or.inl hl
    · simp only [lookupA, List.cons_append, List.find?, hx] at hl ⊢
      exact ih hl

theorem commitObject_creslv {repo : Repo} {st : Cache} {h : Hash} {cd : CommitData}
    (hco : commitObject repo st h = some cd) (hfs : FetchedSub repo st) :
    CResolvable repo h := by
  rcases lookupA_append_or hco with hm | ⟨_, hf⟩
  · exact Or.inl (by simp [hm])
  · have := hfs _ (lookupA_mem hf)
    exact Or.inr (by simp [this])

theorem commitObject_main {repo : Repo} {st : Cache} {h : Hash} {cd cd0 : CommitData}
    (hmain : lookupA repo.commits h = some cd0)
    (hco : commitObject repo st h = some cd) : cd0 = cd := by
  have := lookupA_append_some (b := st.fetched) hmain
  rw [commitObject] at hco
  rw [this] at hco
  exact Option.some.inj hco

theorem subRefIn_tpresent {repo : Repo} {a x : Hash} (h : SubRefIn repo a x) :
    TPresent repo a := by
  cases h with
  | sub th E e hE _ _ => simp [TPresent, hE]
  | dir th E e x hE _ _ _ => simp [TPresent, hE]

theorem specSeen_mem {x : Hash} {ps : List Trac} :
    x ∈ specSeen ps ↔ ∃ p ∈ ps, ∃ hd ∈ p.subHeads, hd.hash = x := by
  simp only [specSeen, List.mem_flatten, List.mem_map]
  constructor
  · rintro ⟨l, ⟨p, hp, rfl⟩, hx⟩
    obtain ⟨hd, hhd, rfl⟩ := List.mem_map.mp hx
    exact ⟨p, hp, hd, hhd, rfl⟩
  · rintro ⟨p, hp, hd, hhd, rfl⟩
    exact ⟨p.subHeads.map Trac.hash, ⟨p, hp, rfl⟩, List.mem_map.mpr ⟨hd, hhd, rfl⟩⟩

/-- The cache invariant is stable under growing the written store and the
exclusion set while keeping the cached Tracs. -/
theorem cacheInv_extend {repo : Repo} {st st' : Cache} (hci : CacheInvAt repo st)
    (htr : st'.tracs = st.tracs) (hex : ListExt st.excludes st'.excludes)
    (hw : ListExt st.written st'.written) : CacheInvAt repo st' := by
  intro pr hpr
  rw [htr] at hpr
  obtain ⟨hhash, hbr⟩ := hci pr hpr
  refine ⟨hhash, ?_⟩
  rcases hbr with ⟨hres, hinv, hcov⟩ | ⟨hres, hinv, hcov⟩
  · exact Or.inl ⟨hres, hinv.ctracMono hw, hcov.commitCovMono hex⟩
  · exact Or.inr ⟨hres, hinv.ttracMono hw, hcov.treeCovMono hex⟩

/-- Adding a Trac that satisfies its branch of the invariant preserves
the cache invariant. -/
theorem cacheInv_add {repo : Repo} {st : Cache} (hci : CacheInvAt repo st) {t : Trac}
    (hnew : (CResolvable repo t.hash ∧ CTracInv st.written t ∧
        CommitCov repo st.excludes t t.hash) ∨
      (TPresent repo t.hash ∧ TTracInv st.written t ∧
        TreeCov repo st.excludes t t.hash)) :
    CacheInvAt repo (cacheAdd st t) := by
  intro pr hpr
  rcases List.mem_append.mp hpr with hold | hn
  · exact hci pr hold
  · have : pr = (t.hash, t) := by simpa using hn
    subst this
    exact ⟨rfl, hnew⟩

/-- Excluding a hash preserves the cache invariant. -/
theorem cacheInv_exclude {repo : Repo} {st : Cache} (hci : CacheInvAt repo st)
    (h : Hash) : CacheInvAt repo (st.exclude h) := by
  by_cases hmem : h ∈ st.excludes
  · simpa [Cache.exclude, hmem] using hci
  · refine cacheInv_extend hci ?_ ?_ ?_ <;> simp [Cache.exclude, hmem, ListExt]

theorem stepOK_add (repo : Repo) (st : Cache) (t : Trac) :
    StepOK repo st (cacheAdd st t) :=
  ⟨⟨rfl, ListExt.extRefl _, ⟨[(t.hash, t)], rfl⟩, ListExt.extRefl _, ListExt.extRefl _⟩,
   fun _ hh => Or.inl hh⟩

theorem stepOK_written (repo : Repo) (st : Cache) (l : List SynthCommit) :
    StepOK repo st { st with written := st.written ++ l } :=
  ⟨⟨rfl, ListExt.extRefl _, ListExt.extRefl _, ListExt.extRefl _, ⟨l, rfl⟩⟩,
   fun _ hh => Or.inl hh⟩

theorem stepOK_fetch (repo : Repo) (st : Cache) (l : List (Hash × CommitData)) :
    StepOK repo st { st with fetched := st.fetched ++ l } :=
  ⟨⟨rfl, ListExt.extRefl _, ListExt.extRefl _, ⟨l, rfl⟩, ListExt.extRefl _⟩,
   fun _ hh => Or.inl hh⟩

theorem commitObject_mono {repo : Repo} {st st' : Cache} (hext : Extends st st')
    {h : Hash} {cd : CommitData} (hco : commitObject repo st h = some cd) :
    commitObject repo st' h = some cd := by
  obtain ⟨d, hd⟩ := hext.2.2.2.1
  rw [commitObject, hd, ← List.append_assoc]
  exact lookupA_append_some hco

/-! ### The main invariant induction over the fueled traversal -/

/-- What a successful `tracCommit` run guarantees. -/
def TCSpec (repo : Repo) (fuel : Nat) : Prop :=
  ∀ st path chash cd st' t,
    WfRepo repo → FetchedSub repo st → CacheInvAt repo st →
    commitObject repo st chash = some cd →
    tracCommit repo fuel st path chash cd = .ok (st', t) →
    StepOK repo st st' ∧ FetchedSub repo st' ∧ CacheInvAt repo st' ∧
    t.hash = chash ∧ (chash, t) ∈ st'.tracs ∧
    CTracInv st'.written t ∧ CommitCov repo st'.excludes t chash

/-- What a successful `tracParents` run guarantees. -/
def TPSpec (repo : Repo) (fuel : Nat) : Prop :=
  ∀ st path i ps st' pts,
    WfRepo repo → FetchedSub repo st → CacheInvAt repo st →
    tracParents repo fuel st path i ps = .ok (st', pts) →
    StepOK repo st st' ∧ FetchedSub repo st' ∧ CacheInvAt repo st' ∧
    List.Forall₂ (fun p pt => (pt : Trac).hash = p ∧ (p, pt) ∈ st'.tracs ∧
      CTracInv st'.written pt ∧ CommitCov repo st'.excludes pt p) ps pts

/-- What a successful `tracTree` run guarantees. -/
def TTSpec (repo : Repo) (fuel : Nat) : Prop :=
  ∀ st path th entries st' t,
    WfRepo repo → FetchedSub repo st → CacheInvAt repo st →
    lookupA repo.trees th = some entries →
    tracTree repo fuel st path th entries = .ok (st', t) →
    StepOK repo st st' ∧ FetchedSub repo st' ∧ CacheInvAt repo st' ∧
    t.hash = th ∧ (th, t) ∈ st'.tracs ∧
    TTracInv st'.written t ∧ TreeCov repo st'.excludes t th

/-- What a successful `tracEntries` run guarantees. -/
def TESpec (repo : Repo) (fuel : Nat) : Prop :=
  ∀ st path entries st' heads,
    WfRepo repo → FetchedSub repo st → CacheInvAt repo st →
    tracEntries repo fuel st path entries = .ok (st', heads) →
    StepOK repo st st' ∧ FetchedSub repo st' ∧ CacheInvAt repo st' ∧
    (∀ hd ∈ heads, HeadInv st'.written hd) ∧
    ∃ contribs, heads = contribs.flatten ∧
      List.Forall₂ (EntryContrib st') entries contribs

theorem tcSpec_zero (repo : Repo) : TCSpec repo 0 := by
  intro st path chash cd st' t _ _ _ _ hrun
  simp [tracCommit] at hrun

theorem tpSpec_zero (repo : Repo) : TPSpec repo 0 := by
  intro st path i ps st' pts _ _ _ hrun
  simp [tracParents] at hrun

theorem ttSpec_zero (repo : Repo) : TTSpec repo 0 := by
  intro st path th entries st' t _ _ _ _ hrun
  simp [tracTree] at hrun

theorem teSpec_zero (repo : Repo) : TESpec repo 0 := by
  intro st path entries st' heads _ _ _ hrun
  simp [tracEntries] at hrun

theorem CTracInv.tcMem {ws : List SynthCommit} {t : Trac} (h : CTracInv ws t) :
    ∀ tc, t.tracCommit = some tc → tc ∈ ws := by
  cases h with | intro t hmem _ _ _ _ _ _ _ _ => exact hmem

theorem CTracInv.tcHeads {ws : List SynthCommit} {t : Trac} (h : CTracInv ws t) :
    ∀ tc, t.tracCommit = some tc → ∀ hd ∈ t.subHeads, Reaches ws tc.hash hd.hash := by
  cases h with | intro t _ hheads _ _ _ _ _ _ _ => exact hheads

theorem CTracInv.tcPar {ws : List SynthCommit} {t : Trac} (h : CTracInv ws t) :
    ∀ tc, t.tracCommit = some tc → ∀ p ∈ t.parents, ∀ ptc,
      p.tracCommit = some ptc → Reaches ws tc.hash ptc.hash := by
  cases h with | intro t _ _ hpar _ _ _ _ _ _ => exact hpar

theorem CTracInv.tcNone1 {ws : List SynthCommit} {t : Trac} (h : CTracInv ws t) :
    t.tracCommit = none → t.subHeads = [] := by
  cases h with | intro t _ _ _ hnone1 _ _ _ _ _ => exact hnone1

theorem CTracInv.tcNone2 {ws : List SynthCommit} {t : Trac} (h : CTracInv ws t) :
    t.tracCommit = none → ∀ p ∈ t.parents, p.tracCommit = none := by
  cases h with | intro t _ _ _ _ hnone2 _ _ _ _ => exact hnone2

theorem CTracInv.tcUnch {ws : List SynthCommit} {t : Trac} (h : CTracInv ws t) :
    ∀ p, t.parents = [p] → t.subHeads.map Trac.hash = p.subHeads.map Trac.hash →
      t.tracCommit = p.tracCommit := by
  cases h with | intro t _ _ _ _ _ hunch _ _ _ => exact hunch

theorem CTracInv.tcIntro {ws : List SynthCommit} {t : Trac} (h : CTracInv ws t) :
    t.parents = [] → t.subHeads ≠ [] →
      ∃ tc, t.tracCommit = some tc ∧ tc.message = tracMessage t.hash := by
  cases h with | intro t _ _ _ _ _ _ hintro _ _ => exact hintro

theorem CTracInv.tcRec {ws : List SynthCommit} {t : Trac} (h : CTracInv ws t) :
    ∀ p ∈ t.parents, CTracInv ws p := by
  cases h with | intro t _ _ _ _ _ _ _ hrec _ => exact hrec

theorem CTracInv.tcHeadInv {ws : List SynthCommit} {t : Trac} (h : CTracInv ws t) :
    ∀ hd ∈ t.subHeads, HeadInv ws hd := by
  cases h with | intro t _ _ _ _ _ _ _ _ hheadinv => exact hheadinv

theorem CTracInv.headInv {ws : List SynthCommit} {t : Trac} (h : CTracInv ws t) :
    HeadInv ws t := fun tc htc => h.tcMem tc htc

theorem tpStep (repo : Repo) (f : Nat) (ihC : TCSpec repo f) (ihP : TPSpec repo f) :
    TPSpec repo (f + 1) := by
  intro st path i ps st' pts hwf hfs hci hrun
  match ps with
  | [] =>
    simp only [tracParents, Except.ok.injEq, Prod.mk.injEq] at hrun
    obtain ⟨rfl, rfl⟩ := hrun
    exact ⟨StepOK.stepRefl repo st, hfs, hci, List.Forall₂.nil⟩
  | p :: rest =>
    simp only [tracParents] at hrun
    cases hco : commitObject repo st p with
    | none => simp only [hco] at hrun; exact Except.noConfusion hrun
    | some pcd =>
      simp only [hco] at hrun
      cases hrc : tracCommit repo f st (commitPath path i) p pcd with
      | error e => simp only [hrc] at hrun; exact Except.noConfusion hrun
      | ok r1 =>
        obtain ⟨st1, ptrac⟩ := r1
        simp only [hrc] at hrun
        cases hrr : tracParents repo f st1 path (i + 1) rest with
        | error e => simp only [hrr] at hrun; exact Except.noConfusion hrun
        | ok r2 =>
          obtain ⟨st2, ptracs⟩ := r2
          simp only [hrr, Except.ok.injEq, Prod.mk.injEq] at hrun
          obtain ⟨rfl, rfl⟩ := hrun
          obtain ⟨sok1, hfs1, hci1, hhash1, hmem1, hctv1, hcov1⟩ :=
            ihC st _ p pcd st1 ptrac hwf hfs hci hco hrc
          obtain ⟨sok2, hfs2, hci2, hfa2⟩ :=
            ihP st1 path (i + 1) rest st2 ptracs hwf hfs1 hci1 hrr
          exact ⟨sok1.stepTrans sok2, hfs2, hci2,
            List.Forall₂.cons
              ⟨hhash1, sok2.1.2.2.1.mem hmem1, hctv1.ctracMono sok2.1.2.2.2.2,
               hcov1.commitCovMono sok2.1.2.1⟩ hfa2⟩

theorem ttStep (repo : Repo) (f : Nat) (ihE : TESpec repo f) : TTSpec repo (f + 1) := by
  intro st path th entries st' t hwf hfs hci hth hrun
  simp only [tracTree] at hrun
  cases hl : lookupA st.tracs th with
  | some t0 =>
    simp only [hl, Except.ok.injEq, Prod.mk.injEq] at hrun
    obtain ⟨rfl, rfl⟩ := hrun
    obtain ⟨hhash, hbr⟩ := hci _ (lookupA_mem hl)
    have htp : TPresent repo th := by simp [TPresent, hth]
    rcases hbr with ⟨hres, _, _⟩ | ⟨_, hinv, hcov⟩
    · exact absurd htp (wf_not_tree hwf hres)
    · exact ⟨StepOK.stepRefl repo st, hfs, hci, hhash, lookupA_mem hl, hinv, hcov⟩
  | none =>
    simp only [hl] at hrun
    cases hre : tracEntries repo f st path entries with
    | error e => simp only [hre] at hrun; exact Except.noConfusion hrun
    | ok r =>
      obtain ⟨st1, heads⟩ := r
      simp only [hre, Except.ok.injEq, Prod.mk.injEq] at hrun
      obtain ⟨rfl, rfl⟩ := hrun
      obtain ⟨sokE, hfsE, hciE, hhinv, contribs, hflat, hfa⟩ :=
        ihE st path entries st1 heads hwf hfs hci hre
      have htcov : TreeCov repo st1.excludes (Trac.mk path th [] heads none) th := by
        intro x hsr
        cases hsr with
        | sub th E e hE he hmode =>
          have hEeq : E = entries := by
            rw [hth] at hE; exact (Option.some.inj hE).symm
          subst hEeq
          obtain ⟨contrib, hcmem, hR⟩ := forall₂_mem hfa he
          simp only [EntryContrib, hmode] at hR
          rcases hR with ⟨hex, _⟩ | ⟨_, tr, _, hhash2, hcon⟩
          · exact Or.inr hex
          · refine Or.inl ⟨tr, ?_, hhash2⟩
            simp only [Trac.subHeads_mk, hflat]
            exact List.mem_flatten.mpr ⟨contrib, hcmem, by rw [hcon]; simp⟩
        | dir th E e x hE he hmode hrec =>
          have hEeq : E = entries := by
            rw [hth] at hE; exact (Option.some.inj hE).symm
          subst hEeq
          obtain ⟨contrib, hcmem, hR⟩ := forall₂_mem hfa he
          simp only [EntryContrib, hmode] at hR
          obtain ⟨tr, hmem, _, hcon⟩ := hR
          have htp' : TPresent repo e.hash := subRefIn_tpresent hrec
          obtain ⟨_, hbr⟩ := hciE _ hmem
          rcases hbr with ⟨hres, _, _⟩ | ⟨_, _, hcov⟩
          · exact absurd htp' (wf_not_tree hwf hres)
          · rcases hcov x hrec with ⟨hd, hhd, hdh⟩ | hex
            · refine Or.inl ⟨hd, ?_, hdh⟩
              simp only [Trac.subHeads_mk, hflat]
              exact List.mem_flatten.mpr ⟨contrib, hcmem, hcon ▸ hhd⟩
            · exact Or.inr hex
      have htp : TPresent repo th := by simp [TPresent, hth]
      refine ⟨sokE.stepTrans (stepOK_add repo st1 _), hfsE,
        cacheInv_add hciE (Or.inr ⟨htp, ⟨rfl, rfl, hhinv⟩, htcov⟩),
        rfl, ?_, ⟨rfl, rfl, hhinv⟩, htcov⟩
      exact List.mem_append_right _ (by simp [cacheAdd])

theorem teStep (repo : Repo) (f : Nat) (ihC : TCSpec repo f) (ihT : TTSpec repo f)
    (ihE : TESpec repo f) : TESpec repo (f + 1) := by
  intro st path entries st' heads hwf hfs hci hrun
  match entries with
  | [] =>
    simp only [tracEntries, Except.ok.injEq, Prod.mk.injEq] at hrun
    obtain ⟨rfl, rfl⟩ := hrun
    exact ⟨StepOK.stepRefl repo st, hfs, hci, by simp, [], rfl, List.Forall₂.nil⟩
  | e :: rest =>
    simp only [tracEntries] at hrun
    cases hmode : e.mode with
    | file =>
      simp only [hmode] at hrun
      obtain ⟨sokE, hfsE, hciE, hhinv, contribs, hflat, hfa⟩ :=
        ihE st path rest st' heads hwf hfs hci hrun
      exact ⟨sokE, hfsE, hciE, hhinv, [] :: contribs, by simpa using hflat,
        List.Forall₂.cons (by simp [EntryContrib, hmode]) hfa⟩
    | dir =>
      simp only [hmode] at hrun
      cases htr : treeObject repo e.hash with
      | none => simp only [htr] at hrun; exact Except.noConfusion hrun
      | some subE =>
        simp only [htr] at hrun
        cases hrt : tracTree repo f st (path ++ e.name ++ "/") e.hash subE with
        | error err => simp only [hrt] at hrun; exact Except.noConfusion hrun
        | ok r1 =>
          obtain ⟨st1, subtrac⟩ := r1
          simp only [hrt] at hrun
          cases hre : tracEntries repo f st1 path rest with
          | error err => simp only [hre] at hrun; exact Except.noConfusion hrun
          | ok r2 =>
            obtain ⟨st2, heads2⟩ := r2
            simp only [hre, Except.ok.injEq, Prod.mk.injEq] at hrun
            obtain ⟨rfl, rfl⟩ := hrun
            obtain ⟨sok1, hfs1, hci1, hhash1, hmem1, httv1, _⟩ :=
              ihT st _ e.hash subE st1 subtrac hwf hfs hci htr hrt
            obtain ⟨sok2, hfs2, hci2, hhinv2, contribs, hflat, hfa⟩ :=
              ihE st1 path rest st2 heads2 hwf hfs1 hci1 hre
            refine ⟨sok1.stepTrans sok2, hfs2, hci2, ?_, subtrac.subHeads :: contribs,
              by simp [hflat], List.Forall₂.cons ?_ hfa⟩
            · intro hd hhd
              rcases List.mem_append.mp hhd with hl | hr
              · exact (httv1.2.2 hd hl).headInvMono sok2.1.2.2.2.2
              · exact hhinv2 hd hr
            · simp only [EntryContrib, hmode]
              exact ⟨subtrac, sok2.1.2.2.1.mem hmem1, hhash1, rfl⟩
    | submodule =>
      simp only [hmode] at hrun
      by_cases hex : e.hash ∈ st.excludes
      · rw [if_pos hex] at hrun
        obtain ⟨sokE, hfsE, hciE, hhinv, contribs, hflat, hfa⟩ :=
          ihE st path rest st' heads hwf hfs hci hrun
        refine ⟨sokE, hfsE, hciE, hhinv, [] :: contribs, by simpa using hflat,
          List.Forall₂.cons ?_ hfa⟩
        simp only [EntryContrib, hmode]
        exact Or.inl ⟨sokE.1.2.1.mem hex, by simp⟩
      · rw [if_neg hex] at hrun
        cases hcl : lookupA st.tracs e.hash with
        | some subtrac =>
          simp only [hcl] at hrun
          cases hre : tracEntries repo f st path rest with
          | error err => simp only [hre] at hrun; exact Except.noConfusion hrun
          | ok r2 =>
            obtain ⟨st2, heads2⟩ := r2
            simp only [hre, Except.ok.injEq, Prod.mk.injEq] at hrun
            obtain ⟨rfl, rfl⟩ := hrun
            obtain ⟨sokE, hfsE, hciE, hhinv, contribs, hflat, hfa⟩ :=
              ihE st path rest st2 heads2 hwf hfs hci hre
            obtain ⟨hhash0, hbr0⟩ := hci _ (lookupA_mem hcl)
            have hnotex2 : e.hash ∉ st2.excludes := by
              intro hmem2
              rcases sokE.2 _ hmem2 with hl | ⟨hnc, _, _⟩
              · exact hex hl
              · rw [hcl] at hnc; exact Option.noConfusion hnc
            have hhinvsub : HeadInv st2.written subtrac := by
              rcases hbr0 with ⟨_, hctv, _⟩ | ⟨_, httv, _⟩
              · exact hctv.headInv.headInvMono sokE.1.2.2.2.2
              · intro tc htc; rw [httv.1] at htc; exact Option.noConfusion htc
            refine ⟨sokE, hfsE, hciE, ?_, [subtrac] :: contribs, by simp [hflat],
              List.Forall₂.cons ?_ hfa⟩
            · intro hd hhd
              rcases List.mem_cons.mp hhd with heq | hr
              · exact heq ▸ hhinvsub
              · exact hhinv hd hr
            · simp only [EntryContrib, hmode]
              exact Or.inr ⟨hnotex2, subtrac, sokE.1.2.2.1.mem (lookupA_mem hcl),
                hhash0, rfl⟩
        | none =>
          simp only [hcl] at hrun
          cases hco : commitObject repo st e.hash with
          | some sc =>
            simp only [hco] at hrun
            cases hrc : tracCommit repo f st (path ++ e.name ++ "@" ++ shortHash e.hash)
                e.hash sc with
            | error err => simp only [hrc] at hrun; exact Except.noConfusion hrun
            | ok r1 =>
              obtain ⟨st1, subtrac⟩ := r1
              simp only [hrc] at hrun
              cases hre : tracEntries repo f st1 path rest with
              | error err => simp only [hre] at hrun; exact Except.noConfusion hrun
              | ok r2 =>
                obtain ⟨st2, heads2⟩ := r2
                simp only [hre, Except.ok.injEq, Prod.mk.injEq] at hrun
                obtain ⟨rfl, rfl⟩ := hrun
                obtain ⟨sok1, hfs1, hci1, hhash1, hmem1, hctv1, _⟩ :=
                  ihC st _ e.hash sc st1 subtrac hwf hfs hci hco hrc
                obtain ⟨sok2, hfs2, hci2, hhinv2, contribs, hflat, hfa⟩ :=
                  ihE st1 path rest st2 heads2 hwf hfs1 hci1 hre
                have hnotex1 : e.hash ∉ st1.excludes := by
                  intro hmem1x
                  rcases sok1.2 _ hmem1x with hl | ⟨_, hmain, hsubs⟩
                  · exact hex hl
                  · rcases lookupA_append_or hco with hm | ⟨_, hf⟩
                    · rw [hmain] at hm; exact Option.noConfusion hm
                    · have := hfs _ (lookupA_mem hf)
                      rw [hsubs] at this; exact Option.noConfusion this
                have hnotex2 : e.hash ∉ st2.excludes := by
                  intro hmem2
                  rcases sok2.2 _ hmem2 with hl | ⟨hnc, _, _⟩
                  · exact hnotex1 hl
                  · have hsome := lookupA_isSome_of_mem hmem1
                    rw [hnc] at hsome; simp at hsome
                refine ⟨sok1.stepTrans sok2, hfs2, hci2, ?_, [subtrac] :: contribs,
                  by simp [hflat], List.Forall₂.cons ?_ hfa⟩
                · intro hd hhd
                  rcases List.mem_cons.mp hhd with heq | hr
                  · exact heq ▸ (hctv1.headInv.headInvMono sok2.1.2.2.2.2)
                  · exact hhinv2 hd hr
                · simp only [EntryContrib, hmode]
                  exact Or.inr ⟨hnotex2, subtrac, sok2.1.2.2.1.mem hmem1, hhash1, rfl⟩
          | none =>
            simp only [hco] at hrun
            cases hsc : lookupA repo.subCommits e.hash with
            | some scd =>
              simp only [hsc] at hrun
              cases hco2 : commitObject repo
                  { st with fetched := st.fetched ++ fetchClosure repo (f + 1) [e.hash] }
                  e.hash with
              | none => simp only [hco2] at hrun; exact Except.noConfusion hrun
              | some sc =>
                simp only [hco2] at hrun
                cases hrc : tracCommit repo f
                    { st with fetched := st.fetched ++ fetchClosure repo (f + 1) [e.hash] }
                    (path ++ e.name ++ "@" ++ shortHash e.hash) e.hash sc with
                | error err => simp only [hrc] at hrun; exact Except.noConfusion hrun
                | ok r1 =>
                  obtain ⟨st1, subtrac⟩ := r1
                  simp only [hrc] at hrun
                  cases hre : tracEntries repo f st1 path rest with
                  | error err => simp only [hre] at hrun; exact Except.noConfusion hrun
                  | ok r2 =>
                    obtain ⟨st2, heads2⟩ := r2
                    simp only [hre, Except.ok.injEq, Prod.mk.injEq] at hrun
                    obtain ⟨rfl, rfl⟩ := hrun
                    have hfsF : FetchedSub repo
                        { st with fetched := st.fetched ++ fetchClosure repo (f + 1) [e.hash] } := by
                      intro p hp
                      rcases List.mem_append.mp hp with hl | hr
                      · exact hfs p hl
                      · exact fetchClosure_sub (f + 1) [e.hash] p hr
                    have hciF : CacheInvAt repo
                        { st with fetched := st.fetched ++ fetchClosure repo (f + 1) [e.hash] } :=
                      hci
                    obtain ⟨sok1, hfs1, hci1, hhash1, hmem1, hctv1, _⟩ :=
                      ihC _ _ e.hash sc st1 subtrac hwf hfsF hciF hco2 hrc
                    obtain ⟨sok2, hfs2, hci2, hhinv2, contribs, hflat, hfa⟩ :=
                      ihE st1 path rest st2 heads2 hwf hfs1 hci1 hre
                    have sok0 := stepOK_fetch repo st (fetchClosure repo (f + 1) [e.hash])
                    have hnotex1 : e.hash ∉ st1.excludes := by
                      intro hmem1x
                      rcases sok1.2 _ hmem1x with hl | ⟨_, _, hsubs⟩
                      · exact hex hl
                      · rw [hsc] at hsubs; exact Option.noConfusion hsubs
                    have hnotex2 : e.hash ∉ st2.excludes := by
                      intro hmem2
                      rcases sok2.2 _ hmem2 with hl | ⟨hnc, _, _⟩
                      · exact hnotex1 hl
                      · have hsome := lookupA_isSome_of_mem hmem1
                        rw [hnc] at hsome; simp at hsome
                    refine ⟨(sok0.stepTrans sok1).stepTrans sok2, hfs2, hci2, ?_,
                      [subtrac] :: contribs, by simp [hflat], List.Forall₂.cons ?_ hfa⟩
                    · intro hd hhd
                      rcases List.mem_cons.mp hhd with heq | hr
                      · exact heq ▸ (hctv1.headInv.headInvMono sok2.1.2.2.2.2)
                      · exact hhinv2 hd hr
                    · simp only [EntryContrib, hmode]
                      exact Or.inr ⟨hnotex2, subtrac, sok2.1.2.2.1.mem hmem1, hhash1, rfl⟩
            | none =>
              simp only [hsc] at hrun
              by_cases hauto : st.autoexclude = true
              · rw [if_pos hauto] at hrun
                have hexcl : st.exclude e.hash =
                    { st with excludes := st.excludes ++ [e.hash] } := by
                  simp [Cache.exclude, hex]
                rw [hexcl] at hrun
                obtain ⟨sokE, hfsE, hciE, hhinv, contribs, hflat, hfa⟩ :=
                  ihE { st with excludes := st.excludes ++ [e.hash] } path rest st' heads
                    hwf hfs (hexcl ▸ cacheInv_exclude hci e.hash) hrun
                have sok0 : StepOK repo st { st with excludes := st.excludes ++ [e.hash] } := by
                  refine ⟨⟨rfl, ⟨[e.hash], rfl⟩, ListExt.extRefl _, ListExt.extRefl _,
                    ListExt.extRefl _⟩, fun h hh => ?_⟩
                  rcases List.mem_append.mp hh with hl | hr
                  · exact Or.inl hl
                  · have heq : h = e.hash := by simpa using hr
                    subst heq
                    exact Or.inr ⟨hcl, lookupA_append_none hco, hsc⟩
                refine ⟨sok0.stepTrans sokE, hfsE, hciE, hhinv, [] :: contribs,
                  by simpa using hflat, List.Forall₂.cons ?_ hfa⟩
                simp only [EntryContrib, hmode]
                exact Or.inl ⟨sokE.1.2.1.mem (List.mem_append_right _ (by simp)), by simp⟩
              · rw [if_neg hauto] at hrun
                exact Except.noConfusion hrun

theorem tcStep (repo : Repo) (f : Nat) (ihT : TTSpec repo f) (ihP : TPSpec repo f) :
    TCSpec repo (f + 1) := by
  intro st path chash cd st' t hwf hfs hci hcd hrun
  simp only [tracCommit] at hrun
  cases hl : lookupA st.tracs chash with
  | some t0 =>
    simp only [hl, Except.ok.injEq, Prod.mk.injEq] at hrun
    obtain ⟨rfl, rfl⟩ := hrun
    obtain ⟨hhash, hbr⟩ := hci _ (lookupA_mem hl)
    have hres : CResolvable repo chash := commitObject_creslv hcd hfs
    rcases hbr with ⟨_, hctv, hccov⟩ | ⟨htp, _, _⟩
    · exact ⟨StepOK.stepRefl repo st, hfs, hci, hhash, lookupA_mem hl, hctv, hccov⟩
    · exact absurd htp (wf_not_tree hwf hres)
  | none =>
    simp only [hl] at hrun
    cases htr : treeObject repo cd.tree with
    | none => simp only [htr] at hrun; exact Except.noConfusion hrun
    | some entries =>
      simp only [htr] at hrun
      cases hrt : tracTree repo f st (path ++ "/") cd.tree entries with
      | error e => simp only [hrt] at hrun; exact Except.noConfusion hrun
      | ok r1 =>
        obtain ⟨st1, ttrac⟩ := r1
        simp only [hrt] at hrun
        cases hrp : tracParents repo f st1 path 1 cd.parents with
        | error e => simp only [hrp] at hrun; exact Except.noConfusion hrun
        | ok r2 =>
          obtain ⟨st2, ptracs⟩ := r2
          simp only [hrp] at hrun
          obtain ⟨sok1, hfs1, hci1, hhashT, hmemT, httv1, htcov1⟩ :=
            ihT st _ cd.tree entries st1 ttrac hwf hfs hci htr hrt
          obtain ⟨sok2, hfs2, hci2, hfa2⟩ :=
            ihP st1 path 1 cd.parents st2 ptracs hwf hfs1 hci1 hrp
          set pp := parentsPass ptracs [] [] [] with hpp
          set hpr := headsPass ttrac.subHeads pp.1 pp.2.1 [] pp.2.2 with hhp
          have hres : CResolvable repo chash := commitObject_creslv hcd hfs
          -- characterizations of the work lists
          have hcorr : hpr.2.1 = hpr.2.2.2.map SynthCommit.hash := by
            rw [hhp]
            exact headsPass_stt_corr _ _ _ _ _
              (by rw [hpp]; exact parentsPass_stt_corr _ _ _ _ (by simp))
          have hseen : pp.1 = specSeen ptracs := by
            rw [hpp, parentsPass_seen]; simp
          have hcover : ∀ hd ∈ ttrac.subHeads,
              hd.hash ∈ specSeen ptracs ∨ hd.hash ∈ hpr.2.2.1.map Trac.hash := by
            intro hd hhd
            rw [← hseen]
            exact headsPass_cover _ _ _ _ _ hd hhd
          have hptcCover : ∀ p ∈ ptracs, ∀ ptc, p.tracCommit = some ptc →
              ∃ c ∈ hpr.2.2.2, c.hash = ptc.hash := by
            intro p hp' ptc hptc
            have h1 : ptc.hash ∈ pp.2.1 :=
              parentsPass_ptc_cover ptracs [] [] [] p hp' ptc hptc
            have h2 : ptc.hash ∈ hpr.2.1 := (headsPass_stt_ext _ _ _ _ _).mem h1
            rw [hcorr] at h2
            obtain ⟨c, hc, hch⟩ := List.mem_map.mp h2
            exact ⟨c, hc, hch⟩
          have hparCtv : ∀ p ∈ ptracs, CTracInv st2.written p := by
            intro p hp'
            obtain ⟨_, _, _, _, hctv, _⟩ := forall₂_mem_right hfa2 hp'
            exact hctv
          have htracsW : ∀ c ∈ hpr.2.2.2, c ∈ st2.written := by
            intro c hc
            rcases headsPass_tracs_src _ _ _ _ _ c hc with hin | ⟨hd, hhd, hdc⟩
            · rcases parentsPass_tracs_src _ _ _ _ c hin with h0 | ⟨p, hp', hpc⟩
              · cases h0
              · exact (hparCtv p hp').tcMem c hpc
            · exact ((httv1.2.2 hd hhd).headInvMono sok2.1.2.2.2.2) c hdc
          have hcovSeen : ∀ hd ∈ ttrac.subHeads, hd.hash ∈ specSeen ptracs →
              ∃ p ∈ ptracs, ∃ ptc, p.tracCommit = some ptc ∧
                Reaches st2.written ptc.hash hd.hash := by
            intro hd hhd hmem
            obtain ⟨p, hp', hd', hhd', hdh⟩ := specSeen_mem.mp hmem
            have hctv := hparCtv p hp'
            cases hpc : p.tracCommit with
            | none =>
              have := hctv.tcNone1 hpc
              rw [this] at hhd'; cases hhd'
            | some ptc =>
              exact ⟨p, hp', ptc, hpc, hdh ▸ hctv.tcHeads ptc hpc hd' hhd'⟩
          have hccovGen : ∀ otc, CommitCov repo st2.excludes
              (Trac.mk path chash ptracs ttrac.subHeads otc) chash := by
            intro otc x hcsr
            cases hcsr with
            | tree c cd0 x hlc hsr =>
              have hcdeq : cd0 = cd := commitObject_main hlc hcd
              subst hcdeq
              rcases (htcov1.treeCovMono sok2.1.2.1) x hsr with ⟨hd, hhd, hdh⟩ | hexm
              · exact Or.inl (hdh ▸ HeadIn.here _ hd (by simpa using hhd))
              · exact Or.inr hexm
            | parent c cd0 pnat x hlc hpmem hrec =>
              have hcdeq : cd0 = cd := commitObject_main hlc hcd
              subst hcdeq
              obtain ⟨pt, hptmem, hR⟩ := forall₂_mem hfa2 hpmem
              obtain ⟨_, _, _, hcovP⟩ := hR
              rcases hcovP x hrec with hhi | hexm
              · exact Or.inl (HeadIn.up _ pt x (by simpa using hptmem) hhi)
              · exact Or.inr hexm
          by_cases hdec : hpr.2.2.1.length = 0 ∧ hpr.2.2.2.length ≤ 1
          · rw [if_pos hdec] at hrun
            simp only [Except.ok.injEq, Prod.mk.injEq] at hrun
            obtain ⟨rfl, rfl⟩ := hrun
            have hnhnil : hpr.2.2.1 = [] := List.length_eq_zero.mp hdec.1
            have hhd_seen : ∀ hd ∈ ttrac.subHeads, hd.hash ∈ specSeen ptracs := by
              intro hd hhd
              rcases hcover hd hhd with h | h
              · exact h
              · rw [hnhnil] at h; cases h
            have huniq : ∀ c ∈ hpr.2.2.2, hpr.2.2.2.head? = some c := by
              intro c hc
              cases hl2 : hpr.2.2.2 with
              | nil => rw [hl2] at hc; cases hc
              | cons a tl =>
                have htl : tl = [] := by
                  have h2 := hdec.2
                  rw [hl2] at h2
                  simpa using h2
                subst htl
                rw [hl2] at hc
                simp at hc
                subst hc
                simp
            have hctvNew : CTracInv st2.written
                (Trac.mk path chash ptracs ttrac.subHeads hpr.2.2.2.head?) := by
              refine CTracInv.intro _ ?_ ?_ ?_ ?_ ?_ ?_ ?_ ?_ ?_
              · -- tracCommit written
                intro tc htc
                simp only [Trac.tracCommit_mk] at htc
                have hcmem : tc ∈ hpr.2.2.2 := by
                  cases hl2 : hpr.2.2.2 with
                  | nil => rw [hl2] at htc; cases htc
                  | cons a tl =>
                    rw [hl2] at htc
                    simp at htc
                    rw [← htc]
                    exact List.mem_cons_self a tl
                exact htracsW tc hcmem
              · -- heads reachable
                intro tc htc hd hhd
                simp only [Trac.tracCommit_mk] at htc
                simp only [Trac.subHeads_mk] at hhd
                obtain ⟨p, hp', ptc, hpc, hreach⟩ :=
                  hcovSeen hd hhd (hhd_seen hd hhd)
                obtain ⟨c, hc, hch⟩ := hptcCover p hp' ptc hpc
                have hhead := huniq c hc
                rw [htc] at hhead
                have hceq : tc = c := Option.some.inj hhead
                subst hceq
                rw [hch]
                exact hreach
              · -- parent trac commits reachable
                intro tc htc p hp' ptc hpc
                simp only [Trac.tracCommit_mk] at htc
                simp only [Trac.parents_mk] at hp'
                obtain ⟨c, hc, hch⟩ := hptcCover p hp' ptc hpc
                have hhead := huniq c hc
                rw [htc] at hhead
                have hceq : tc = c := Option.some.inj hhead
                subst hceq
                rw [hch]
                exact Reaches.refl _
              · -- absent implies no heads
                intro htc
                simp only [Trac.tracCommit_mk] at htc
                have hnil2 : hpr.2.2.2 = [] := by
                  cases hl2 : hpr.2.2.2 with
                  | nil => rfl
                  | cons a tl => rw [hl2] at htc; cases htc
                simp only [Trac.subHeads_mk]
                refine List.eq_nil_iff_forall_not_mem.mpr (fun hd hhd => ?_)
                obtain ⟨p, hp', ptc, hpc, _⟩ := hcovSeen hd hhd (hhd_seen hd hhd)
                obtain ⟨c, hc, _⟩ := hptcCover p hp' ptc hpc
                rw [hnil2] at hc
                cases hc
              · -- absent implies parents absent
                intro htc p hp'
                simp only [Trac.tracCommit_mk] at htc
                simp only [Trac.parents_mk] at hp'
                have hnil2 : hpr.2.2.2 = [] := by
                  cases hl2 : hpr.2.2.2 with
                  | nil => rfl
                  | cons a tl => rw [hl2] at htc; cases htc
                cases hpc : p.tracCommit with
                | none => rfl
                | some ptc =>
                  obtain ⟨c, hc, _⟩ := hptcCover p hp' ptc hpc
                  rw [hnil2] at hc
                  cases hc
              · -- single unchanged parent shares the trac commit
                intro p hpar heads_eq
                simp only [Trac.parents_mk] at hpar
                simp only [Trac.subHeads_mk] at heads_eq
                simp only [Trac.tracCommit_mk]
                have hallseen : ∀ hd ∈ ttrac.subHeads, hd.hash ∈ pp.1 := by
                  intro hd hhd
                  rw [hseen, hpar]
                  have hmm : hd.hash ∈ ttrac.subHeads.map Trac.hash :=
                    List.mem_map.mpr ⟨hd, hhd, rfl⟩
                  rw [heads_eq] at hmm
                  simpa [specSeen] using hmm
                have hfix := headsPass_all_seen ttrac.subHeads pp.1 pp.2.1 [] pp.2.2 hallseen
                have h222 : hpr.2.2.2 = pp.2.2 := by rw [hhp, hfix]
                rw [h222, hpp, hpar]
                cases hpc : p.tracCommit with
                | some ptc => simp [parentsPass, hpc]
                | none => simp [parentsPass, hpc]
              · -- a parentless commit with heads synthesizes (vacuous here)
                intro hpar hne
                exfalso
                simp only [Trac.parents_mk] at hpar
                simp only [Trac.subHeads_mk] at hne
                obtain ⟨hd, hhd⟩ := List.exists_mem_of_ne_nil _ hne
                rcases hcover hd hhd with h | h
                · rw [hpar] at h; simp [specSeen] at h
                · rw [hnhnil] at h; cases h
              · -- recursive invariant of parents
                intro p hp'
                simp only [Trac.parents_mk] at hp'
                exact hparCtv p hp'
              · -- heads reference written commits
                intro hd hhd
                simp only [Trac.subHeads_mk] at hhd
                exact (httv1.2.2 hd hhd).headInvMono sok2.1.2.2.2.2
            refine ⟨(sok1.stepTrans sok2).stepTrans (stepOK_add repo st2 _), hfs2,
              cacheInv_add hci2 (Or.inl ⟨hres, hctvNew, hccovGen _⟩), rfl,
              List.mem_append_right _ (by simp [cacheAdd]), hctvNew, hccovGen _⟩
          · rw [if_neg hdec] at hrun
            simp only [newTracCommit, Except.ok.injEq, Prod.mk.injEq] at hrun
            obtain ⟨rfl, rfl⟩ := hrun
            set T : SynthCommit :=
              { authorName := "git-subtrac"
                authorEmail := "git-subtrac@"
                when := cd.committerWhen
                treeHash := emptyTreeHash
                parentHashes := hpr.2.2.2.map (fun c => c.hash) ++
                  hpr.2.2.1.map Trac.hash
                message := tracMessage chash
                hash := synthHashOf chash emptyTreeHash cd.committerWhen
                  (hpr.2.2.2.map (fun c => c.hash) ++ hpr.2.2.1.map Trac.hash) } with hT
            have hwext : ListExt st2.written (st2.written ++ [T]) := ⟨[T], rfl⟩
            have hTmem : T ∈ st2.written ++ [T] := List.mem_append_right _ (by simp)
            have hparhash : ∀ c ∈ hpr.2.2.2, c.hash ∈ T.parentHashes := by
              intro c hc
              exact List.mem_append_left _ (List.mem_map.mpr ⟨c, hc, rfl⟩)
            have hctvNew : CTracInv (st2.written ++ [T])
                (Trac.mk path chash ptracs ttrac.subHeads (some T)) := by
              refine CTracInv.intro _ ?_ ?_ ?_ ?_ ?_ ?_ ?_ ?_ ?_
              · intro tc htc
                simp only [Trac.tracCommit_mk] at htc
                injection htc with h
                subst h
                exact hTmem
              · intro tc htc hd hhd
                simp only [Trac.tracCommit_mk] at htc
                simp only [Trac.subHeads_mk] at hhd
                injection htc with h
                subst h
                rcases hcover hd hhd with h | h
                · obtain ⟨p, hp', ptc, hpc, hreach⟩ := hcovSeen hd hhd h
                  obtain ⟨c, hc, hch⟩ := hptcCover p hp' ptc hpc
                  have hmm : ptc.hash ∈ T.parentHashes := hch ▸ hparhash c hc
                  exact Reaches.step T ptc.hash hd.hash hTmem hmm (hreach.reachesMono hwext)
                · have hmm : hd.hash ∈ T.parentHashes :=
                    List.mem_append_right _ h
                  exact Reaches.step T hd.hash hd.hash hTmem hmm (Reaches.refl _)
              · intro tc htc p hp' ptc hpc
                simp only [Trac.tracCommit_mk] at htc
                simp only [Trac.parents_mk] at hp'
                injection htc with h
                subst h
                obtain ⟨c, hc, hch⟩ := hptcCover p hp' ptc hpc
                have hmm : ptc.hash ∈ T.parentHashes := hch ▸ hparhash c hc
                exact Reaches.step T ptc.hash ptc.hash hTmem hmm (Reaches.refl _)
              · intro htc
                simp only [Trac.tracCommit_mk] at htc
                cases htc
              · intro htc
                simp only [Trac.tracCommit_mk] at htc
                cases htc
              · intro p hpar heads_eq
                exfalso
                simp only [Trac.parents_mk] at hpar
                simp only [Trac.subHeads_mk] at heads_eq
                have hallseen : ∀ hd ∈ ttrac.subHeads, hd.hash ∈ pp.1 := by
                  intro hd hhd
                  rw [hseen, hpar]
                  have hmm : hd.hash ∈ ttrac.subHeads.map Trac.hash :=
                    List.mem_map.mpr ⟨hd, hhd, rfl⟩
                  rw [heads_eq] at hmm
                  simpa [specSeen] using hmm
                have hfix := headsPass_all_seen ttrac.subHeads pp.1 pp.2.1 [] pp.2.2 hallseen
                have h221 : hpr.2.2.1 = [] := by rw [hhp, hfix]
                have h222 : hpr.2.2.2 = pp.2.2 := by rw [hhp, hfix]
                refine hdec ⟨by rw [h221]; rfl, ?_⟩
                rw [h222, hpp, hpar]
                cases hpc : p.tracCommit with
                | some ptc => simp [parentsPass, hpc]
                | none => simp [parentsPass, hpc]
              · intro hpar hne
                simp only [Trac.tracCommit_mk, Trac.hash_mk]
                exact ⟨T, rfl, rfl⟩
              · intro p hp'
                simp only [Trac.parents_mk] at hp'
                exact (hparCtv p hp').ctracMono hwext
              · intro hd hhd
                simp only [Trac.subHeads_mk] at hhd
                exact ((httv1.2.2 hd hhd).headInvMono sok2.1.2.2.2.2).headInvMono hwext
            have sok3 : StepOK repo st2 { st2 with written := st2.written ++ [T] } :=
              stepOK_written repo st2 [T]
            have hci3 : CacheInvAt repo { st2 with written := st2.written ++ [T] } :=
              cacheInv_extend hci2 rfl (ListExt.extRefl _) hwext
            refine ⟨((sok1.stepTrans sok2).stepTrans sok3).stepTrans (stepOK_add repo _ _), hfs2,
              cacheInv_add hci3 (Or.inl ⟨hres, hctvNew, hccovGen _⟩), rfl,
              List.mem_append_right _ (by simp [cacheAdd]), hctvNew, hccovGen _⟩

/-- The full invariant induction: every fuel level satisfies all four
traversal specifications. -/
theorem grandSpec (repo : Repo) : ∀ fuel, TCSpec repo fuel ∧ TPSpec repo fuel ∧
    TTSpec repo fuel ∧ TESpec repo fuel := by
  intro fuel
  induction fuel with
  | zero => exact ⟨tcSpec_zero repo, tpSpec_zero repo, ttSpec_zero repo, teSpec_zero repo⟩
  | succ f ih =>
    obtain ⟨ihC, ihP, ihT, ihE⟩ := ih
    exact ⟨tcStep repo f ihT ihP, tpStep repo f ihC ihP, ttStep repo f ihE,
      teStep repo f ihC ihT ihE⟩

/-- The initial cache state built by `NewCache` (excluding the exclusion
parsing, handled separately): empty caches and stores. -/
def initCache (autoexclude : Bool) (excludes : List Hash) : Cache :=
  { autoexclude := autoexclude, excludes := excludes, tracs := [], fetched := [],
    written := [] }

theorem initCache_fetchedSub (repo : Repo) (a : Bool) (ex : List Hash) :
    FetchedSub repo (initCache a ex) := by
  intro p hp; cases hp

theorem initCache_cacheInv (repo : Repo) (a : Bool) (ex : List Hash) :
    CacheInvAt repo (initCache a ex) := by
  intro pr hpr; cases hpr

/-- From the commit invariant, every recorded head of the commit or of an
ancestor is reachable from the trac commit. -/
theorem headIn_reaches {ws : List SynthCommit} {t : Trac} (hctv : CTracInv ws t)
    {x : Hash} (hx : HeadIn t x) :
    ∃ tc, t.tracCommit = some tc ∧ Reaches ws tc.hash x := by
  induction hx with
  | here t hd hhd =>
    cases htc : t.tracCommit with
    | none =>
      have := hctv.tcNone1 htc
      rw [this] at hhd; cases hhd
    | some tc => exact ⟨tc, rfl, hctv.tcHeads tc htc hd hhd⟩
  | up t p x hp _ ih =>
    obtain ⟨ptc, hptc, hreach⟩ := ih (hctv.tcRec p hp)
    cases htc : t.tracCommit with
    | none =>
      have := hctv.tcNone2 htc p hp
      rw [this] at hptc; cases hptc
    | some tc =>
      exact ⟨tc, rfl, (hctv.tcPar tc htc p hp ptc hptc).comp hreach⟩

/-- From the commit invariant, an ancestor with nonempty heads has a trac
commit reachable from the descendant's trac commit. -/
theorem anc_reaches {ws : List SynthCommit} {t : Trac} (hctv : CTracInv ws t)
    {b : Trac} (hanc : AncTrac t b) (hne : b.subHeads ≠ []) :
    ∃ tct tcb, t.tracCommit = some tct ∧ b.tracCommit = some tcb ∧
      Reaches ws tct.hash tcb.hash := by
  induction hanc with
  | refl t =>
    cases htc : t.tracCommit with
    | none => exact absurd (hctv.tcNone1 htc) hne
    | some tc => exact ⟨tc, tc, rfl, rfl, Reaches.refl _⟩
  | step t p b hp _ ih =>
    obtain ⟨tcp, tcb, hp1, hb1, hr1⟩ := ih (hctv.tcRec p hp) hne
    cases htc : t.tracCommit with
    | none =>
      have := hctv.tcNone2 htc p hp
      rw [this] at hp1; cases hp1
    | some tct =>
      exact ⟨tct, tcb, rfl, hb1, (hctv.tcPar tct htc p hp tcp hp1).comp hr1⟩

/-- The commit invariant propagates down an unchanged linear chain. -/
theorem unch_inv {ws : List SynthCommit} {t b : Trac} (hctv : CTracInv ws t)
    (hu : Unch t b) : CTracInv ws b := by
  induction hu with
  | refl t => exact hctv
  | step t p b hpar _ _ ih =>
    exact ih (hctv.tcRec p (hpar ▸ List.mem_cons_self _ _))

/-- Along an unchanged linear chain, all Tracs share the same optional
trac commit. -/
theorem unch_shares {ws : List SynthCommit} {t b : Trac} (hctv : CTracInv ws t)
    (hu : Unch t b) : t.tracCommit = b.tracCommit := by
  induction hu with
  | refl t => rfl
  | step t p b hpar hheads _ ih =>
    have h1 := hctv.tcUnch p hpar hheads
    have h2 := ih (hctv.tcRec p (hpar ▸ List.mem_cons_self _ _))
    exact h1.trans h2

/-! ### Determinism across equivalent object stores -/

/-- Two repositories are equivalent when every lookup returns the same
result (same commits, trees and sub-repository objects as maps). -/
def RepoEquiv (r1 r2 : Repo) : Prop :=
  (∀ h, lookupA r1.commits h = lookupA r2.commits h) ∧
  (∀ h, lookupA r1.trees h = lookupA r2.trees h) ∧
  (∀ h, lookupA r1.subCommits h = lookupA r2.subCommits h)

theorem lookupA_append_none_left {α : Type} {a b : List (Hash × α)} {h : Hash}
    (ha : lookupA a h = none) : lookupA (a ++ b) h = lookupA b h := by
  induction a with
  | nil => simp
  | cons x rest ih =>
    by_cases hx : x.1 == h
    · simp [lookupA, List.find?, hx] at ha
    · simp only [lookupA, List.find?, hx] at ha ⊢
      exact ih ha

theorem lookupA_congr_append {α : Type} {a1 a2 : List (Hash × α)}
    (hA : ∀ h, lookupA a1 h = lookupA a2 h) (b : List (Hash × α)) (h : Hash) :
    lookupA (a1 ++ b) h = lookupA (a2 ++ b) h := by
  cases h1 : lookupA a1 h with
  | some v =>
    rw [lookupA_append_some h1, lookupA_append_some ((hA h) ▸ h1)]
  | none =>
    rw [lookupA_append_none_left h1, lookupA_append_none_left ((hA h) ▸ h1)]

theorem fetchClosure_equiv {r1 r2 : Repo} (hsubs : ∀ h, lookupA r1.subCommits h =
    lookupA r2.subCommits h) : ∀ fuel hs,
    fetchClosure r1 fuel hs = fetchClosure r2 fuel hs := by
  intro fuel
  induction fuel with
  | zero => intro hs; rfl
  | succ f ih =>
    intro hs
    match hs with
    | [] => rfl
    | h :: rest =>
      rw [fetchClosure, fetchClosure, hsubs h]
      cases lookupA r2.subCommits h with
      | some cd => simp only [ih]
      | none => simp only [ih]

/-- Runs of the traversal over equivalent object stores are equal. -/
theorem runEquiv (r1 r2 : Repo) (heq : RepoEquiv r1 r2) : ∀ fuel,
    (∀ st path chash cd,
      tracCommit r1 fuel st path chash cd = tracCommit r2 fuel st path chash cd) ∧
    (∀ st path i ps,
      tracParents r1 fuel st path i ps = tracParents r2 fuel st path i ps) ∧
    (∀ st path th entries,
      tracTree r1 fuel st path th entries = tracTree r2 fuel st path th entries) ∧
    (∀ st path entries,
      tracEntries r1 fuel st path entries = tracEntries r2 fuel st path entries) := by
  have htree : ∀ h, treeObject r1 h = treeObject r2 h := heq.2.1
  have hcomm : ∀ (st : Cache) h, commitObject r1 st h = commitObject r2 st h :=
    fun st h => lookupA_congr_append heq.1 st.fetched h
  have hsubs := heq.2.2
  have hfc := fetchClosure_equiv hsubs
  intro fuel
  induction fuel with
  | zero =>
    refine ⟨fun st path chash cd => rfl, fun st path i ps => rfl,
      fun st path th entries => rfl, fun st path entries => rfl⟩
  | succ f ih =>
    obtain ⟨ihC, ihP, ihT, ihE⟩ := ih
    refine ⟨?_, ?_, ?_, ?_⟩
    · intro st path chash cd
      simp only [tracCommit, htree, ihT, ihP]
    · intro st path i ps
      match ps with
      | [] => rfl
      | p :: rest => simp only [tracParents, hcomm, ihC, ihP]
    · intro st path th entries
      simp only [tracTree, ihE]
    · intro st path entries
      match entries with
      | [] => rfl
      | e :: rest => simp only [tracEntries, htree, hcomm, hsubs, hfc, ihT, ihC, ihE]

/-! ### Refinement of the synthesis work lists to the spec description -/

theorem headsPass_nh_spec : ∀ (hs : List Trac) (sh stt : List Hash)
    (nh : List Trac) (tcs : List SynthCommit),
    (headsPass hs sh stt nh tcs).2.2.1 = nh ++ specNewHeads sh hs := by
  intro hs
  induction hs with
  | nil => intro sh stt nh tcs; simp [headsPass, specNewHeads]
  | cons q rest ih =>
    intro sh stt nh tcs
    by_cases hc : q.hash ∈ sh
    · simp only [headsPass, if_pos hc, specNewHeads]
      rw [ih]
    · cases hqc : q.tracCommit with
      | none =>
        simp only [headsPass, if_neg hc, hqc, specNewHeads]
        rw [ih]; simp
      | some tc =>
        by_cases hct : tc.hash ∈ stt
        · simp only [headsPass, if_neg hc, hqc, if_pos hct, specNewHeads]
          rw [ih]; simp
        · simp only [headsPass, if_neg hc, hqc, if_neg hct, specNewHeads]
          rw [ih]; simp

theorem parentsPass_tracs_spec : ∀ (ps : List Trac) (sh stt : List Hash)
    (tcs : List SynthCommit), stt = tcs.map SynthCommit.hash →
    (parentsPass ps sh stt tcs).2.2 = dedupSynth tcs (ps.filterMap Trac.tracCommit) := by
  intro ps
  induction ps with
  | nil => intro sh stt tcs hcorr; simp [parentsPass, dedupSynth]
  | cons q rest ih =>
    intro sh stt tcs hcorr
    cases hqc : q.tracCommit with
    | none =>
      simp only [parentsPass, hqc, List.filterMap_cons, hqc]
      exact ih _ _ _ hcorr
    | some tc =>
      subst hcorr
      by_cases hct : tc.hash ∈ tcs.map SynthCommit.hash
      · simp only [parentsPass, hqc, if_pos hct, List.filterMap_cons, hqc,
          dedupSynth, if_pos hct]
        exact ih _ _ _ rfl
      · simp only [parentsPass, hqc, if_neg hct, List.filterMap_cons, hqc,
          dedupSynth, if_neg hct]
        exact ih _ _ _ (by simp)

theorem headsPass_tracs_spec : ∀ (hs : List Trac) (sh stt : List Hash)
    (nh : List Trac) (tcs : List SynthCommit), stt = tcs.map SynthCommit.hash →
    (headsPass hs sh stt nh tcs).2.2.2 =
      dedupSynth tcs ((specNewHeads sh hs).filterMap Trac.tracCommit) := by
  intro hs
  induction hs with
  | nil => intro sh stt nh tcs hcorr; simp [headsPass, specNewHeads, dedupSynth]
  | cons q rest ih =>
    intro sh stt nh tcs hcorr
    by_cases hc : q.hash ∈ sh
    · simp only [headsPass, if_pos hc, specNewHeads]
      exact ih _ _ _ _ hcorr
    · cases hqc : q.tracCommit with
      | none =>
        simp only [headsPass, if_neg hc, hqc, specNewHeads,
          List.filterMap_cons, hqc]
        exact ih _ _ _ _ hcorr
      | some tc =>
        subst hcorr
        by_cases hct : tc.hash ∈ tcs.map SynthCommit.hash
        · simp only [headsPass, if_neg hc, hqc, if_pos hct, specNewHeads,
            List.filterMap_cons, hqc, dedupSynth, if_pos hct]
          exact ih _ _ _ _ rfl
        · simp only [headsPass, if_neg hc, hqc, if_neg hct, specNewHeads,
            List.filterMap_cons, hqc, dedupSynth, if_neg hct]
          exact ih _ _ _ _ (by simp)

/-! ### Claim theorems -/

theorem entryContrib_add {st : Cache} {tr : Trac} {e : TreeEntry} {c : List Trac}
    (h : EntryContrib st e c) : EntryContrib (cacheAdd st tr) e c := by
  cases hm : e.mode with
  | file => simp only [EntryContrib, hm] at h ⊢; exact h
  | dir =>
    simp only [EntryContrib, hm] at h ⊢
    obtain ⟨tr', hmem, hhash, hcon⟩ := h
    exact ⟨tr', List.mem_append_left _ hmem, hhash, hcon⟩
  | submodule =>
    simp only [EntryContrib, hm] at h ⊢
    rcases h with ⟨hex, hcon⟩ | ⟨hnex, tr', hmem, hhash, hcon⟩
    · exact Or.inl ⟨hex, hcon⟩
    · exact Or.inr ⟨hnex, tr', List.mem_append_left _ hmem, hhash, hcon⟩

/-- C1: for every commit Trac computed (not cache-hit) by `tracCommit`:
when the spec's `new_heads` is empty and the unique-by-hash
`inherited_trac_parents` list has at most one element, the trac commit is
the single inherited commit or absent; otherwise a fresh synthetic commit
is created whose parents are the inherited trac commits followed by the
new heads in order, with the canonical empty tree, the fixed
`git-subtrac` identity carrying the source committer timestamp, and the
message template citing the source hash. -/
theorem c1_synthesis_decision (repo : Repo) (fuel : Nat) (st : Cache) (path : String)
    (chash : Hash) (cd : CommitData) (st' : Cache) (t : Trac)
    (hl : lookupA st.tracs chash = none)
    (hrun : tracCommit repo (fuel + 1) st path chash cd = .ok (st', t)) :
    ∃ ptracs heads otc, t = Trac.mk path chash ptracs heads otc ∧
      (specNewHeads (specSeen ptracs) heads = [] ∧
          (specInherited ptracs (specNewHeads (specSeen ptracs) heads)).length ≤ 1 →
        otc = (specInherited ptracs (specNewHeads (specSeen ptracs) heads)).head?) ∧
      (¬(specNewHeads (specSeen ptracs) heads = [] ∧
          (specInherited ptracs (specNewHeads (specSeen ptracs) heads)).length ≤ 1) →
        ∃ tc, otc = some tc ∧
          tc.parentHashes =
            (specInherited ptracs (specNewHeads (specSeen ptracs) heads)).map
              SynthCommit.hash ++
            (specNewHeads (specSeen ptracs) heads).map Trac.hash ∧
          tc.treeHash = emptyTreeHash ∧ tc.authorName = "git-subtrac" ∧
          tc.authorEmail = "git-subtrac@" ∧ tc.when = cd.committerWhen ∧
          tc.message = tracMessage chash) := by
  simp only [tracCommit] at hrun
  simp only [hl] at hrun
  cases htr : treeObject repo cd.tree with
  | none => simp only [htr] at hrun; exact Except.noConfusion hrun
  | some entries =>
    simp only [htr] at hrun
    cases hrt : tracTree repo fuel st (path ++ "/") cd.tree entries with
    | error e => simp only [hrt] at hrun; exact Except.noConfusion hrun
    | ok r1 =>
      obtain ⟨st1, ttrac⟩ := r1
      simp only [hrt] at hrun
      cases hrp : tracParents repo fuel st1 path 1 cd.parents with
      | error e => simp only [hrp] at hrun; exact Except.noConfusion hrun
      | ok r2 =>
        obtain ⟨st2, ptracs⟩ := r2
        simp only [hrp] at hrun
        set pp := parentsPass ptracs [] [] [] with hpp
        set hpr := headsPass ttrac.subHeads pp.1 pp.2.1 [] pp.2.2 with hhp
        have hseen : pp.1 = specSeen ptracs := by
          rw [hpp, parentsPass_seen]; simp
        have hnr : hpr.2.2.1 = specNewHeads (specSeen ptracs) ttrac.subHeads := by
          rw [hhp, headsPass_nh_spec, hseen]; simp
        have htri : hpr.2.2.2 =
            specInherited ptracs (specNewHeads (specSeen ptracs) ttrac.subHeads) := by
          rw [hhp, headsPass_tracs_spec _ _ _ _ _
            (by rw [hpp]; exact parentsPass_stt_corr _ _ _ _ (by simp))]
          rw [hpp, parentsPass_tracs_spec _ _ _ _ (by simp), hseen]
          rfl
        by_cases hdec : hpr.2.2.1.length = 0 ∧ hpr.2.2.2.length ≤ 1
        · rw [if_pos hdec] at hrun
          simp only [Except.ok.injEq, Prod.mk.injEq] at hrun
          obtain ⟨rfl, rfl⟩ := hrun
          refine ⟨ptracs, ttrac.subHeads, hpr.2.2.2.head?, rfl, fun _ => ?_, fun hcon => ?_⟩
          · rw [htri]
          · exfalso
            refine hcon ⟨?_, ?_⟩
            · rw [← hnr]; exact List.length_eq_zero.mp hdec.1
            · rw [← htri]; exact hdec.2
        · rw [if_neg hdec] at hrun
          simp only [newTracCommit, Except.ok.injEq, Prod.mk.injEq] at hrun
          obtain ⟨rfl, rfl⟩ := hrun
          refine ⟨ptracs, ttrac.subHeads, _, rfl, fun hcon => ?_, fun _ => ?_⟩
          · exfalso
            refine hdec ⟨?_, ?_⟩
            · rw [hnr, hcon.1]; rfl
            · rw [htri]; exact hcon.2
          · refine ⟨_, rfl, ?_, rfl, rfl, rfl, rfl, rfl⟩
            rw [htri, hnr]

/-- C2: for every tree computed (not cache-hit) by `tracTree`, the
resulting tree Trac's subHeads is exactly the concatenation, in stored
entry order, of one Trac per non-excluded submodule entry (excluded ones
omitted as if absent) and the recursively computed subHeads of each
directory entry, files ignored; and for every commit computed by
`tracCommit`, the commit Trac's subHeads equals its root tree Trac's
subHeads. -/
theorem c2_subheads_structure (repo : Repo) :
    (∀ fuel st path th entries st' t,
      WfRepo repo → FetchedSub repo st → CacheInvAt repo st →
      lookupA st.tracs th = none →
      lookupA repo.trees th = some entries →
      tracTree repo (fuel + 1) st path th entries = .ok (st', t) →
      ∃ contribs, t.subHeads = contribs.flatten ∧
        List.Forall₂ (EntryContrib st') entries contribs) ∧
    (∀ fuel st path chash cd st' t,
      WfRepo repo → FetchedSub repo st → CacheInvAt repo st →
      lookupA st.tracs chash = none →
      tracCommit repo (fuel + 1) st path chash cd = .ok (st', t) →
      ∃ ttrac : Trac, (cd.tree, ttrac) ∈ st'.tracs ∧ t.subHeads = ttrac.subHeads) := by
  constructor
  · intro fuel st path th entries st' t hwf hfs hci hl hth hrun
    simp only [tracTree] at hrun
    simp only [hl] at hrun
    cases hre : tracEntries repo fuel st path entries with
    | error e => simp only [hre] at hrun; exact Except.noConfusion hrun
    | ok r =>
      obtain ⟨st1, heads⟩ := r
      simp only [hre, Except.ok.injEq, Prod.mk.injEq] at hrun
      obtain ⟨rfl, rfl⟩ := hrun
      obtain ⟨_, _, _, _, contribs, hflat, hfa⟩ :=
        ((grandSpec repo fuel).2.2.2) st path entries st1 heads hwf hfs hci hre
      exact ⟨contribs, by simpa using hflat,
        hfa.imp (fun {e c} h => entryContrib_add h)⟩
  · intro fuel st path chash cd st' t hwf hfs hci hl hrun
    simp only [tracCommit] at hrun
    simp only [hl] at hrun
    cases htr : treeObject repo cd.tree with
    | none => simp only [htr] at hrun; exact Except.noConfusion hrun
    | some entries =>
      simp only [htr] at hrun
      cases hrt : tracTree repo fuel st (path ++ "/") cd.tree entries with
      | error e => simp only [hrt] at hrun; exact Except.noConfusion hrun
      | ok r1 =>
        obtain ⟨st1, ttrac⟩ := r1
        simp only [hrt] at hrun
        cases hrp : tracParents repo fuel st1 path 1 cd.parents with
        | error e => simp only [hrp] at hrun; exact Except.noConfusion hrun
        | ok r2 =>
          obtain ⟨st2, ptracs⟩ := r2
          simp only [hrp] at hrun
          obtain ⟨_, hfs1, hci1, _, hmem1, _, _⟩ :=
            (grandSpec repo fuel).2.2.1 st (path ++ "/") cd.tree entries st1 ttrac
              hwf hfs hci htr hrt
          obtain ⟨sok2, _, _, _⟩ :=
            (grandSpec repo fuel).2.1 st1 path 1 cd.parents st2 ptracs hwf hfs1 hci1 hrp
          have hmem2 : (cd.tree, ttrac) ∈ st2.tracs := sok2.1.2.2.1.mem hmem1
          by_cases hdec : ((headsPass ttrac.subHeads (parentsPass ptracs [] [] []).1
              (parentsPass ptracs [] [] []).2.1 [] (parentsPass ptracs [] [] []).2.2).2.2.1.length = 0 ∧
              (headsPass ttrac.subHeads (parentsPass ptracs [] [] []).1
              (parentsPass ptracs [] [] []).2.1 [] (parentsPass ptracs [] [] []).2.2).2.2.2.length ≤ 1)
          · rw [if_pos hdec] at hrun
            simp only [Except.ok.injEq, Prod.mk.injEq] at hrun
            obtain ⟨rfl, rfl⟩ := hrun
            exact ⟨ttrac, List.mem_append_left _ hmem2, rfl⟩
          · rw [if_neg hdec] at hrun
            simp only [newTracCommit, Except.ok.injEq, Prod.mk.injEq] at hrun
            obtain ⟨rfl, rfl⟩ := hrun
            exact ⟨ttrac, List.mem_append_left _ hmem2, rfl⟩

/-- C3: coverage — for every commit on which `tracCommit` is run and every
hash that appears as a submodule entry in a tree reachable from the commit
or from its ancestors and that is not in the final exclusion set, the hash
is reachable via parent edges from the commit's trac commit inside the
store of synthetic commits written during the run. -/
theorem c3_coverage (repo : Repo) (fuel : Nat) (st : Cache) (path : String)
    (chash : Hash) (cd : CommitData) (st' : Cache) (t : Trac)
    (hwf : WfRepo repo) (hfs : FetchedSub repo st) (hci : CacheInvAt repo st)
    (hcd : commitObject repo st chash = some cd)
    (hrun : tracCommit repo fuel st path chash cd = .ok (st', t)) :
    ∀ x, CommitSubRef repo chash x → x ∉ st'.excludes →
      ∃ tc, t.tracCommit = some tc ∧ Reaches st'.written tc.hash x := by
  obtain ⟨_, _, _, _, _, hctv, hcov⟩ :=
    (grandSpec repo fuel).1 st path chash cd st' t hwf hfs hci hcd hrun
  intro x hsub hnex
  rcases hcov x hsub with hhi | hexm
  · exact headIn_reaches hctv hhi
  · exact absurd hexm hnex

/-- C4: fast-forward monotonicity — for a run of `tracCommit`, every
source ancestor (inside the computed Trac structure) with nonempty
subHeads has its trac commit reachable, via synthetic parent edges, from
the trac commit of the descendant, provided the descendant also has
nonempty subHeads. -/
theorem c4_fast_forward (repo : Repo) (fuel : Nat) (st : Cache) (path : String)
    (chash : Hash) (cd : CommitData) (st' : Cache) (t : Trac)
    (hwf : WfRepo repo) (hfs : FetchedSub repo st) (hci : CacheInvAt repo st)
    (hcd : commitObject repo st chash = some cd)
    (hrun : tracCommit repo fuel st path chash cd = .ok (st', t)) :
    ∀ tx, AncTrac t tx → t.subHeads ≠ [] → tx.subHeads ≠ [] →
      ∃ tcy tcx, t.tracCommit = some tcy ∧ tx.tracCommit = some tcx ∧
        Reaches st'.written tcy.hash tcx.hash := by
  obtain ⟨_, _, _, _, _, hctv, _⟩ :=
    (grandSpec repo fuel).1 st path chash cd st' t hwf hfs hci hcd hrun
  intro tx hanc _ hxne
  exact anc_reaches hctv hanc hxne

/-- C5: determinism — over equivalent object stores (pointwise-equal
commit, tree and sub-repository lookups), any two runs of the traversal
from the same state produce identical results; in particular, the Trac
computed for the same source hash carries the same trac commit hash, or
none in both runs.  The synthetic commit content is a function only of the
source commit's content and ancestry. -/
theorem c5_determinism (r1 r2 : Repo) (heq : RepoEquiv r1 r2) :
    ∀ fuel st path chash cd,
      tracCommit r1 fuel st path chash cd = tracCommit r2 fuel st path chash cd ∧
      (∀ st1 t1 st2 t2, tracCommit r1 fuel st path chash cd = .ok (st1, t1) →
        tracCommit r2 fuel st path chash cd = .ok (st2, t2) →
        t1.tracCommit.map SynthCommit.hash = t2.tracCommit.map SynthCommit.hash) := by
  intro fuel st path chash cd
  have heqr := (runEquiv r1 r2 heq fuel).1 st path chash cd
  refine ⟨heqr, fun st1 t1 st2 t2 h1 h2 => ?_⟩
  rw [heqr] at h1
  rw [h1] at h2
  simp only [Except.ok.injEq, Prod.mk.injEq] at h2
  rw [h2.2]

/-- C6: minimality on linear chains — along a chain inside the computed
Trac structure in which every commit has exactly one parent and
pointwise-hash-equal subHeads, every member (including the tip) shares
one single trac commit: the synthetic commit created at the chain's base,
the first commit that introduced the sub-refs (its message cites the
base's hash). -/
theorem c6_minimality (repo : Repo) (fuel : Nat) (st : Cache) (path : String)
    (chash : Hash) (cd : CommitData) (st' : Cache) (t : Trac)
    (hwf : WfRepo repo) (hfs : FetchedSub repo st) (hci : CacheInvAt repo st)
    (hcd : commitObject repo st chash = some cd)
    (hrun : tracCommit repo fuel st path chash cd = .ok (st', t)) :
    ∀ b, Unch t b → b.parents = [] → b.subHeads ≠ [] →
      ∃ tc, t.tracCommit = some tc ∧ b.tracCommit = some tc ∧
        tc.message = tracMessage b.hash ∧
        ∀ mid, Unch t mid → Unch mid b → mid.tracCommit = some tc := by
  obtain ⟨_, _, _, _, _, hctv, _⟩ :=
    (grandSpec repo fuel).1 st path chash cd st' t hwf hfs hci hcd hrun
  intro b hu hbpar hbne
  have hbinv := unch_inv hctv hu
  obtain ⟨tc, hbtc, hmsg⟩ := hbinv.tcIntro hbpar hbne
  have hshare := unch_shares hctv hu
  refine ⟨tc, hshare.trans hbtc, hbtc, hmsg, ?_⟩
  intro mid h1 h2
  have hmidinv := unch_inv hctv h1
  exact (unch_shares hmidinv h2).trans hbtc

/-! ### Exclusion parsing and CLI claims -/

theorem mem_excludeB {l : List GitHash} {v h : GitHash} :
    h ∈ excludeB l v ↔ h ∈ l ∨ h = v := by
  unfold excludeB
  by_cases hv : l.contains v
  · simp only [if_pos hv]
    constructor
    · exact Or.inl
    · rintro (hh | rfl)
      · exact hh
      · simpa using hv
  · simp only [if_neg hv]
    simp

theorem mem_excludeB_fold : ∀ (xs : List String) (acc : List GitHash) (h : GitHash),
    h ∈ xs.foldl (fun l x => excludeB l (newHash x)) acc ↔
      h ∈ acc ∨ h ∈ xs.map newHash := by
  intro xs
  induction xs with
  | nil => intro acc h; simp
  | cons x rest ih =>
    intro acc h
    simp only [List.foldl_cons, List.map_cons, List.mem_cons]
    rw [ih, mem_excludeB]
    tauto

/-- C7 counterexample: a `.trac-excludes` whose final line is not
terminated by a newline.  The final line is non-blank after cleaning, yet
its hash is not added — the read loop breaks on `io.EOF` before
processing it, so the claim's "including a final line not terminated by a
newline" is false. -/
theorem c7_counterexample :
    cleanLine "0b" ≠ "" ∧
    newHash "0b" ∉ newCacheExcludes [] (some "0a\n0b") ∧
    newHash "0b" ≠ newHash "0a" := by
  refine ⟨by decide, ?_, by decide⟩
  intro hmem
  have : newCacheExcludes [] (some "0a\n0b") = [newHash "0a"] := by decide
  rw [this] at hmem
  simp at hmem
  exact absurd hmem (by decide)

/-- C7 (amended): when `.trac-excludes` exists, `NewCache` adds one hash
for every newline-terminated line that is non-blank after comment
stripping and whitespace trimming; a final line without a newline is
discarded; a missing file is not an error and yields exactly the
command-line exclusions. -/
theorem c7_exclusion_file_parsing :
    (∀ cmdline content h, h ∈ newCacheExcludes cmdline (some content) ↔
      h ∈ cmdline.map newHash ∨ h ∈ (fileExcludeStrings content).map newHash) ∧
    (∀ cmdline h, h ∈ newCacheExcludes cmdline none ↔ h ∈ cmdline.map newHash) ∧
    (∀ content, fileExcludeStrings content =
      ((readLinesLoop [] content.toList).map cleanLine).filter (fun l => l ≠ "")) := by
  refine ⟨?_, ?_, fun content => rfl⟩
  · intro cmdline content h
    unfold newCacheExcludes
    rw [mem_excludeB_fold, mem_excludeB_fold]
    simp
  · intro cmdline h
    unfold newCacheExcludes
    rw [mem_excludeB_fold]
    simp

/-- C10 counterexample: the exclude string "ab" is not a valid full hex
object hash, yet `NewHash` does not normalize it to the all-zero hash: it
keeps the partially decoded byte. -/
theorem c10_counterexample : ¬ isFullHex "ab" ∧ newHash "ab" ≠ zeroHash := by
  constructor
  · intro h
    have := h.1
    simp at this
  · decide

/-- C10 (amended): every exclude string, well-formed or not, is silently
put through `plumbing.NewHash` — the longest even-length valid-hex prefix
is decoded and zero-padded to 20 bytes (the all-zero hash exactly when no
byte was decoded as nonzero; in particular whenever the string starts
with an invalid hex pair) — and that hash is added to the exclusion set
with no error or diagnostic. -/
theorem c10_newhash_normalization :
    (∀ cmdline content s, s ∈ cmdline → newHash s ∈ newCacheExcludes cmdline content) ∧
    (∀ s, newHash s = (hexDecode s.toList).take 20 ++
      List.replicate (20 - ((hexDecode s.toList).take 20).length) 0) ∧
    (∀ s, hexDecode s.toList = [] → newHash s = zeroHash) := by
  refine ⟨?_, fun s => rfl, ?_⟩
  · intro cmdline content s hs
    have hmem : newHash s ∈ cmdline.foldl (fun l x => excludeB l (newHash x)) [] := by
      rw [mem_excludeB_fold]
      exact Or.inr (List.mem_map.mpr ⟨s, hs, rfl⟩)
    cases content with
    | none => exact hmem
    | some c =>
      unfold newCacheExcludes
      rw [mem_excludeB_fold]
      exact Or.inl hmem
  · intro s hdec
    unfold newHash zeroHash
    rw [hdec]
    rfl

/-- C8 counterexample: a fatal operation error (here: `update` failing)
exits through `log.Fatalf`, i.e. with status 1, not 99 as claimed. -/
theorem c8_counterexample :
    (runMain ["update"] true true (.error "boom") (.ok none) (.ok "")).code = 1 ∧
    (runMain ["update"] true true (.error "boom") (.ok none) (.ok "")).code ≠ 99 := by
  exact ⟨rfl, by decide⟩

/-- C8 (amended): the program exits 0 on success; 99 on usage errors (no
command, wrong argument count, unknown command); 1 on fatal operation
errors (open failure, cache failure, update/cid/dump errors, via
`log.Fatalf`); and aborts with a nil-dereference panic (status 2) when
`cid` finds no submodule commits.  Diagnostics go to stderr and command
output to stdout: a run that exits 0 has empty stderr, and a failing run
prints nothing to stdout. -/
theorem c8_exit_codes :
    (∀ args openOk cacheOk u c d,
      (runMain args openOk cacheOk u c d).code = 0 ∨
      (runMain args openOk cacheOk u c d).code = 1 ∨
      (runMain args openOk cacheOk u c d).code = 2 ∨
      (runMain args openOk cacheOk u c d).code = 99) ∧
    (∀ args cacheOk u c d, (runMain args false cacheOk u c d).code = 1) ∧
    (∀ u c d, (runMain [] true true u c d).code = 99) ∧
    (∀ a rest u c d, (runMain ("update" :: a :: rest) true true u c d).code = 99) ∧
    (∀ e c d, (runMain ["update"] true true (.error e) c d).code = 1) ∧
    (∀ c d, (runMain ["update"] true true (.ok ()) c d).code = 0) ∧
    (∀ r0 u e d, (runMain ["cid", r0] true true u (.error e) d).code = 1) ∧
    (∀ r0 u tc d, (runMain ["cid", r0] true true u (.ok (some tc)) d).code = 0 ∧
      (runMain ["cid", r0] true true u (.ok (some tc)) d).out = [toString tc.hash]) ∧
    (∀ r0 u d, (runMain ["cid", r0] true true u (.ok none) d).code = 2 ∧
      (runMain ["cid", r0] true true u (.ok none) d).panicked = true) ∧
    (∀ cmd rest u c d, cmd ≠ "update" → cmd ≠ "cid" → cmd ≠ "dump" →
      (runMain (cmd :: rest) true true u c d).code = 99) ∧
    (∀ args openOk cacheOk u c d,
      ((runMain args openOk cacheOk u c d).code = 0 →
        (runMain args openOk cacheOk u c d).err = []) ∧
      ((runMain args openOk cacheOk u c d).code ≠ 0 →
        (runMain args openOk cacheOk u c d).out = [])) := by
  have hshape : ∀ args openOk cacheOk u c d,
      (∃ m, runMain args openOk cacheOk u c d = usagefOut m) ∨
      (∃ m, runMain args openOk cacheOk u c d = fatalfOut m) ∨
      (∃ cr, runMain args openOk cacheOk u c d = cidOut cr) ∨
      runMain args openOk cacheOk u c d =
        { code := 0, out := [], err := [], panicked := false } ∨
      (∃ s, runMain args openOk cacheOk u c d =
        { code := 0, out := [s], err := [], panicked := false }) := by
    intro args openOk cacheOk u c d
    unfold runMain
    repeat' split
    all_goals first
      | exact Or.inl ⟨_, rfl⟩
      | exact Or.inr (Or.inl ⟨_, rfl⟩)
      | exact Or.inr (Or.inr (Or.inl ⟨_, rfl⟩))
      | exact Or.inr (Or.inr (Or.inr (Or.inl rfl)))
      | exact Or.inr (Or.inr (Or.inr (Or.inr ⟨_, rfl⟩)))
  have hcid : ∀ cr, (cidOut cr).code = 0 ∨ (cidOut cr).code = 1 ∨
      (cidOut cr).code = 2 := by
    intro cr
    rcases cr with e | vc
    · exact Or.inr (Or.inl rfl)
    · rcases vc with _ | tc
      · exact Or.inr (Or.inr rfl)
      · exact Or.inl rfl
  have hcid0 : ∀ cr, (cidOut cr).code = 0 → (cidOut cr).err = [] := by
    intro cr
    rcases cr with e | vc
    · intro h; cases h
    · rcases vc with _ | tc
      · intro h; cases h
      · intro _; rfl
  have hcidout : ∀ cr, (cidOut cr).code ≠ 0 → (cidOut cr).out = [] := by
    intro cr
    rcases cr with e | vc
    · intro _; rfl
    · rcases vc with _ | tc
      · intro _; rfl
      · intro h; exact absurd rfl h
  refine ⟨?_, ?_, ?_, ?_, ?_, ?_, ?_, ?_, ?_, ?_, ?_⟩
  · intro args openOk cacheOk u c d
    rcases hshape args openOk cacheOk u c d with ⟨m, hm⟩ | ⟨m, hm⟩ | ⟨cr, hm⟩ | hm | ⟨s, hm⟩
    · rw [hm]; exact Or.inr (Or.inr (Or.inr rfl))
    · rw [hm]; exact Or.inr (Or.inl rfl)
    · rw [hm]
      rcases hcid cr with h | h | h
      · exact Or.inl h
      · exact Or.inr (Or.inl h)
      · exact Or.inr (Or.inr (Or.inl h))
    · rw [hm]; exact Or.inl rfl
    · rw [hm]; exact Or.inl rfl
  · intro args cacheOk u c d; rfl
  · intro u c d; rfl
  · intro a rest u c d
    simp [runMain, usagefOut]
  · intro e c d; rfl
  · intro c d; rfl
  · intro r0 u e d; rfl
  · intro r0 u tc d; exact ⟨rfl, rfl⟩
  · intro r0 u d; exact ⟨rfl, rfl⟩
  · intro cmd rest u c d h1 h2 h3
    simp [runMain, h1, h2, h3, usagefOut]
  · intro args openOk cacheOk u c d
    rcases hshape args openOk cacheOk u c d with ⟨m, hm⟩ | ⟨m, hm⟩ | ⟨cr, hm⟩ | hm | ⟨s, hm⟩ <;>
      rw [hm]
    · exact ⟨(fun h => by simp [usagefOut] at h), fun _ => rfl⟩
    · exact ⟨(fun h => by simp [fatalfOut] at h), fun _ => rfl⟩
    · exact ⟨hcid0 cr, hcidout cr⟩
    · exact ⟨fun _ => rfl, fun h => absurd rfl h⟩
    · exact ⟨fun _ => rfl, fun h => absurd rfl h⟩

/-! ### Concrete witness repository -/

/-- A small host repository: a three-commit linear chain `10 <- 11 <- 12`
all carrying the same tree `20` with one submodule entry `lib@7`, and the
submodule commit `7` with an empty tree `21`. -/
def repoW : Repo :=
  { commits := [(10, ⟨20, [], 100⟩), (11, ⟨20, [10], 101⟩),
                (12, ⟨20, [11], 102⟩), (7, ⟨21, [], 50⟩)]
    trees := [(20, [⟨"lib", .submodule, 7⟩]), (21, [])]
    subCommits := [] }

def cd12 : CommitData := ⟨20, [11], 102⟩

def wInit : Cache := initCache false []

def wRes : Cache × Trac :=
  (tracCommit repoW 20 wInit "main" 12 cd12).toOption.getD
    (wInit, Trac.mk "" 0 [] [] none)

def wSt : Cache := wRes.1

def wTrac : Trac := wRes.2

theorem wRun : tracCommit repoW 20 wInit "main" 12 cd12 = .ok (wSt, wTrac) := rfl

def wDefault : Trac := Trac.mk "" 0 [] [] none

def wTrac11 : Trac := wTrac.parents.getD 0 wDefault

def wTrac10 : Trac := wTrac11.parents.getD 0 wDefault

theorem wPar12 : wTrac.parents = [wTrac11] := rfl

theorem wPar11 : wTrac11.parents = [wTrac10] := rfl

theorem wPar10 : wTrac10.parents = [] := rfl

theorem wHeads12ne : wTrac.subHeads ≠ [] := by
  intro h
  exact absurd (congrArg List.length h) (by decide)

theorem wHeads10ne : wTrac10.subHeads ≠ [] := by
  intro h
  exact absurd (congrArg List.length h) (by decide)

/-- Witness for C1 at the synthesizing commit 12 of the concrete repo. -/
theorem c1_synthesis_decision_witness :
    ∃ ptracs heads otc, wTrac = Trac.mk "main" 12 ptracs heads otc ∧
      (specNewHeads (specSeen ptracs) heads = [] ∧
          (specInherited ptracs (specNewHeads (specSeen ptracs) heads)).length ≤ 1 →
        otc = (specInherited ptracs (specNewHeads (specSeen ptracs) heads)).head?) ∧
      (¬(specNewHeads (specSeen ptracs) heads = [] ∧
          (specInherited ptracs (specNewHeads (specSeen ptracs) heads)).length ≤ 1) →
        ∃ tc, otc = some tc ∧
          tc.parentHashes =
            (specInherited ptracs (specNewHeads (specSeen ptracs) heads)).map
              SynthCommit.hash ++
            (specNewHeads (specSeen ptracs) heads).map Trac.hash ∧
          tc.treeHash = emptyTreeHash ∧ tc.authorName = "git-subtrac" ∧
          tc.authorEmail = "git-subtrac@" ∧ tc.when = cd12.committerWhen ∧
          tc.message = tracMessage 12) :=
  c1_synthesis_decision repoW 19 wInit "main" 12 cd12 wSt wTrac rfl wRun

def entries20 : List TreeEntry := [⟨"lib", .submodule, 7⟩]

def wTreeRes : Cache × Trac :=
  (tracTree repoW 20 wInit "main/" 20 entries20).toOption.getD (wInit, wDefault)

def wTSt : Cache := wTreeRes.1

def wTTrac : Trac := wTreeRes.2

theorem wTRun : tracTree repoW 20 wInit "main/" 20 entries20 = .ok (wTSt, wTTrac) := rfl

/-- Witness for C2 at the concrete tree 20. -/
theorem c2_subheads_structure_witness :
    ∃ contribs, wTTrac.subHeads = contribs.flatten ∧
      List.Forall₂ (EntryContrib wTSt) entries20 contribs :=
  (c2_subheads_structure repoW).1 19 wInit "main/" 20 entries20 wTSt wTTrac
    (by decide) (initCache_fetchedSub repoW false []) (initCache_cacheInv repoW false [])
    rfl rfl wTRun

/-- Witness for C3: the sub-ref 7 in the history of commit 12 is reachable
from the synthetic tip. -/
theorem c3_coverage_witness :
    CommitSubRef repoW 12 7 ∧ 7 ∉ wSt.excludes ∧
    ∃ tc, wTrac.tracCommit = some tc ∧ Reaches wSt.written tc.hash 7 := by
  have hsub : CommitSubRef repoW 12 7 :=
    CommitSubRef.tree 12 cd12 7 rfl
      (SubRefIn.sub 20 entries20 ⟨"lib", .submodule, 7⟩ rfl
        (List.mem_singleton.mpr rfl) rfl)
  refine ⟨hsub, by decide, ?_⟩
  exact c3_coverage repoW 20 wInit "main" 12 cd12 wSt wTrac (by decide)
    (initCache_fetchedSub repoW false []) (initCache_cacheInv repoW false [])
    rfl wRun 7 hsub (by decide)

/-- Witness for C4: commit 10 is an ancestor of commit 12 in the computed
structure; both carry heads, and 12's trac commit reaches 10's. -/
theorem c4_fast_forward_witness :
    AncTrac wTrac wTrac10 ∧ wTrac.subHeads ≠ [] ∧ wTrac10.subHeads ≠ [] ∧
    ∃ tcy tcx, wTrac.tracCommit = some tcy ∧ wTrac10.tracCommit = some tcx ∧
      Reaches wSt.written tcy.hash tcx.hash := by
  have hanc : AncTrac wTrac wTrac10 :=
    AncTrac.step _ wTrac11 _ (wPar12 ▸ List.mem_cons_self _ _)
      (AncTrac.step _ wTrac10 _ (wPar11 ▸ List.mem_cons_self _ _) (AncTrac.refl _))
  refine ⟨hanc, wHeads12ne, wHeads10ne, ?_⟩
  exact c4_fast_forward repoW 20 wInit "main" 12 cd12 wSt wTrac (by decide)
    (initCache_fetchedSub repoW false []) (initCache_cacheInv repoW false [])
    rfl wRun wTrac10 hanc wHeads12ne wHeads10ne

theorem lookupA_append_shadow {α : Type} {l : List (Hash × α)} {k : Hash} {v : α}
    (hk : (lookupA l k).isSome) (h : Hash) : lookupA (l ++ [(k, v)]) h = lookupA l h := by
  cases h0 : lookupA l h with
  | some w => exact lookupA_append_some h0
  | none =>
    rw [lookupA_append_none_left h0]
    by_cases hkh : k = h
    · subst hkh; rw [h0] at hk; simp at hk
    · have hbeq : (k == h) = false := by simpa using hkh
      simp [lookupA, List.find?, hbeq]

/-- A second store holding the same objects (one shadowed duplicate
appended): all lookups agree. -/
def repoW2 : Repo := { repoW with commits := repoW.commits ++ [(10, ⟨99, [], 0⟩)] }

/-- Witness for C5: the two equivalent stores produce identical runs and
the same trac commit hash. -/
theorem c5_determinism_witness :
    tracCommit repoW 20 wInit "main" 12 cd12 =
      tracCommit repoW2 20 wInit "main" 12 cd12 ∧
    ∃ st2 t2, tracCommit repoW2 20 wInit "main" 12 cd12 = .ok (st2, t2) ∧
      t2.tracCommit.map SynthCommit.hash = wTrac.tracCommit.map SynthCommit.hash := by
  have hequiv : RepoEquiv repoW repoW2 := by
    refine ⟨?_, fun h => rfl, fun h => rfl⟩
    intro h
    exact (lookupA_append_shadow (by decide) h).symm
  have h := c5_determinism repoW repoW2 hequiv 20 wInit "main" 12 cd12
  refine ⟨h.1, wSt, wTrac, by rw [← h.1]; exact wRun, ?_⟩
  exact (h.2 wSt wTrac wSt wTrac wRun (by rw [← h.1]; exact wRun)).symm

/-- Witness for C6: the chain 10 ← 11 ← 12 with unchanged heads shares the
single synthetic commit created at 10. -/
theorem c6_minimality_witness :
    Unch wTrac wTrac10 ∧
    ∃ tc, wTrac.tracCommit = some tc ∧ wTrac10.tracCommit = some tc ∧
      tc.message = tracMessage wTrac10.hash ∧
      ∀ mid, Unch wTrac mid → Unch mid wTrac10 → mid.tracCommit = some tc := by
  have hu : Unch wTrac wTrac10 :=
    Unch.step _ wTrac11 _ wPar12 rfl
      (Unch.step _ wTrac10 _ wPar11 rfl (Unch.refl _))
  refine ⟨hu, ?_⟩
  exact c6_minimality repoW 20 wInit "main" 12 cd12 wSt wTrac (by decide)
    (initCache_fetchedSub repoW false []) (initCache_cacheInv repoW false [])
    rfl wRun wTrac10 hu wPar10 wHeads10ne

/-- Witness for C8's amended theorem: an unknown command is a usage error
with exit status 99. -/
theorem c8_exit_codes_witness :
    (runMain ["frobnicate"] true true (.ok ()) (.ok none) (.ok "")).code = 99 :=
  c8_exit_codes.2.2.2.2.2.2.2.2.2.1 "frobnicate" [] (.ok ()) (.ok none) (.ok "")
    (by decide) (by decide) (by decide)

/-- Witness for C10's amended theorem: the malformed exclude string "ab"
is silently added (as its partial decode). -/
theorem c10_newhash_normalization_witness :
    newHash "ab" ∈ newCacheExcludes ["ab"] none :=
  c10_newhash_normalization.1 ["ab"] none "ab" (by decide)

/-! ### The no-sub-ref branch (C9) -/

/-- A repository with one branch whose single commit has no submodule
entries. -/
def repoC9 : Repo :=
  { commits := [(5, ⟨30, [], 10⟩)], trees := [(30, [])], subCommits := [] }

def refsC9 : Refs := { refs := [("refs/heads/main", 5)] }

/-- C9: on a branch without sub-refs, `TracByRef` succeeds with no
synthetic commit; the `cid` command then dereferences the nil commit
pointer (`trac.Hash`), a runtime panic (abnormal exit, status 2) instead
of the claimed normal exit; `update` instead emits the warning and writes
no tracking ref. -/
def c9CidSt : Cache :=
  ((tracByRef repoC9 refsC9 10 (initCache false []) "refs/heads/main").toOption.getD
    (initCache false [], none)).1

def c9UpdSt : Cache :=
  ((updateBranchRefs repoC9 refsC9 10 (initCache false [])).toOption.getD
    (initCache false [], [], [])).1

theorem c9_no_subref_branch :
    tracByRef repoC9 refsC9 10 (initCache false []) "refs/heads/main" =
      .ok (c9CidSt, none) ∧
    (cidOut (.ok none)).panicked = true ∧ (cidOut (.ok none)).code = 2 ∧
    updateBranchRefs repoC9 refsC9 10 (initCache false []) =
      .ok (c9UpdSt, [],
        ["Warning: no submodule commits found for refs/heads/main; skipping."]) := by
  exact ⟨rfl, rfl, rfl, rfl⟩

end Subtrac
